import Mathlib

/-!
Verification of the spindle service supervisor.

This file shallowly embeds the core of the repository:
  * `src/apps/spindle/src-tauri/src/service.rs` — alias remapping
    (`is_subset`, `map_alias`);
  * `src/crates/spindle-core/src/service.rs` — the group-building pipeline
    (`validate_service_name_unique`, `validate_service_dependencies`,
    `split_services`, `build_service_group`, `build_groups_from_configs`)
    and the `ServiceManager` operations (`launch_service`, `stop_service`,
    `set_service_state`, the event handlers, and the introspection calls).

Rust `HashMap`s are embedded as association lists in insertion order,
`DashMap`s as association lists or key lists, async recursion as
fuel-indexed structural recursion (the fuel is a modelling artifact: the
theorems are either fuel-polymorphic or instantiated with ample fuel),
and `petgraph`'s stable graphs as a node list plus an edge list over
service keys, with edges directed dependency → dependent.
-/

namespace Spindle

/-- Identity of a service: the `(name, version)` pair (`ServiceKey` in the source). -/
abbrev Key := String × String

/-- Runtime state of a service (`ServiceState` in the source). -/
inductive SState where
  | pending
  | starting
  | running
  | stopping
  | stopped
  | failed (reason : String)
  | skipped
deriving DecidableEq, Repr

/-- `ServiceConfig`: the user-facing descriptor fed to the group builder. -/
structure SConfig where
  name : String
  version : String
  program : String
  args : List String
  dependencies : List Key
  workspace : Option String
deriving DecidableEq, Repr

/-- The key of a config. -/
def SConfig.key (c : SConfig) : Key := (c.name, c.version)

/-- `ServiceMeta`: runtime-immutable projection of a config. -/
structure SMeta where
  name : String
  version : String
  program : String
  args : List String
  workspace : Option String
deriving DecidableEq, Repr

/-- The key of a meta. -/
def SMeta.key (m : SMeta) : Key := (m.name, m.version)

/-- `ExtractedService`: meta plus declared dependency keys. -/
structure Extracted where
  meta : SMeta
  deps : List Key
deriving DecidableEq, Repr

/-- `DeadLetterQueueItem`: a service rejected during build or later removed. -/
structure DLQItem where
  key : Key
  reason : String
  meta : SMeta
deriving DecidableEq, Repr

/-! ### Association-list helpers (embedding of `HashMap`/`DashMap`) -/

/-- Point lookup in an association list (first matching key wins). -/
def lookupKey (k : Key) : List (Key × α) → Option α
  | [] => none
  | (k', v) :: rest => if k = k' then some v else lookupKey k rest

/-- Membership test for an association list. -/
def containsKey (k : Key) (l : List (Key × α)) : Bool :=
  (lookupKey k l).isSome

/-- Overwrite the value of every entry carrying key `k` (models a guarded
`get_mut` write, which touches only existing entries). -/
def updateKey (k : Key) (v : α) (l : List (Key × α)) : List (Key × α) :=
  l.map (fun p => if p.1 = k then (k, v) else p)

/-- `DashMap::insert`: overwrite if present, append otherwise. -/
def insertKey (k : Key) (v : α) (l : List (Key × α)) : List (Key × α) :=
  if containsKey k l then updateKey k v l else l ++ [(k, v)]

/-- Remove every entry carrying key `k` (models `HashMap::remove`). -/
def eraseKey (k : Key) (l : List (Key × α)) : List (Key × α) :=
  l.filter (fun p => decide (p.1 ≠ k))

/-- The keys of an association list. -/
def keysOf (l : List (Key × α)) : List Key := l.map Prod.fst

/-! ### Group builder (`spindle-core/src/service.rs`, stages 1-5) -/

/-- A `ServiceGroup`: the stable digraph's node weights in insertion order
plus its edge list over keys, edges directed dependency → dependent.
The `nodeidx_map` of the source is recovered by position/key lookup. -/
structure SGroup where
  metas : List SMeta
  edges : List (Key × Key)
deriving DecidableEq, Repr

/-- The keys of a group's nodes. -/
def SGroup.keys (g : SGroup) : List Key := g.metas.map SMeta.key

/-- The loop of `validate_service_name_unique`, threading the accepted
map and the DLQ exactly as the source's `for` loop does. -/
def vsnuGo : List SConfig → List (Key × Extracted) → List DLQItem →
    List (Key × Extracted) × List DLQItem
  | [], ret, dlq => (ret, dlq)
  | c :: rest, ret, dlq =>
    let key := c.key
    let meta : SMeta :=
      { name := c.name, version := c.version, program := c.program,
        args := c.args, workspace := c.workspace }
    if containsKey key ret then
      vsnuGo rest ret (dlq ++
        [{ key := key,
           reason := "Service " ++ c.name ++ ":v" ++ c.version ++ " is not unique",
           meta := meta }])
    else
      vsnuGo rest (ret ++ [(key, { meta := meta, deps := c.dependencies })]) dlq

/-- Stage 1, `validate_service_name_unique`: first occurrence of a key is
accepted, later duplicates are dead-lettered. -/
def validateServiceNameUnique (configs : List SConfig) (dlq : List DLQItem) :
    List (Key × Extracted) × List DLQItem :=
  vsnuGo configs [] dlq

/-- The keys of an association list as a multiset (the accounting ledger
of the group builder). -/
def keyMass (l : List (Key × α)) : Multiset Key := (keysOf l : Multiset Key)

/-- The keys of a DLQ as a multiset. -/
def dlqMass (dlq : List DLQItem) : Multiset Key := ((dlq.map DLQItem.key) : Multiset Key)

/-- All keys of a component list as a multiset. -/
def compsMass (comps : List (List Key)) : Multiset Key :=
  (comps.map (fun c => (c : Multiset Key))).sum

/-- All node keys of a group list as a multiset. -/
def groupsMass (gs : List SGroup) : Multiset Key :=
  (gs.map (fun g => (g.keys : Multiset Key))).sum

/-- Every map entry's value carries the entry's own key (holds for the
map built by stage 1 and is preserved downstream). -/
def KeyConsistent (infos : List (Key × Extracted)) : Prop :=
  ∀ p ∈ infos, p.2.meta.key = p.1

/-- First declared dependency of `e` that is absent from the surviving map
(the source `break`s at the first missing dependency). -/
def missingDepOf (infos : List (Key × Extracted)) (e : Extracted) : Option Key :=
  e.deps.find? (fun d => !(containsKey d infos))

/-- Reason string of the dangling-dependency rejection. -/
def depMissingReason (dk : Key) : String :=
  "Dependency service " ++ dk.1 ++ "/" ++ dk.2 ++ " not found"

/-- Removal sweep of one pruning pass: for each `(service, missing dep)`
pair remove the service and dead-letter it. -/
def pruneRemoved : List (Key × Key) → List (Key × Extracted) → List DLQItem →
    List (Key × Extracted) × List DLQItem
  | [], infos, dlq => (infos, dlq)
  | (sk, dk) :: rest, infos, dlq =>
    match lookupKey sk infos with
    | some ex =>
        pruneRemoved rest (eraseKey sk infos)
          (dlq ++ [{ key := sk, reason := depMissingReason dk, meta := ex.meta }])
    | none => pruneRemoved rest infos dlq

/-- Stage 2, the `while is_changed` loop of `validate_service_dependencies`:
repeat passes until no service with a missing dependency remains.  The
fuel is a modelling artifact; `infos.length + 1` passes always reach the
fixed point because every non-final pass removes at least one service. -/
def pruneLoop : Nat → List (Key × Extracted) → List DLQItem →
    List (Key × Extracted) × List DLQItem
  | 0, infos, dlq => (infos, dlq)
  | fuel + 1, infos, dlq =>
    let removed := infos.filterMap (fun p => (missingDepOf infos p.2).map (fun d => (p.1, d)))
    if removed.isEmpty then (infos, dlq)
    else
      let pruned := pruneRemoved removed infos dlq
      pruneLoop fuel pruned.1 pruned.2

/-- Stage 2 entry point, `validate_service_dependencies`. -/
def validateServiceDependencies (infos : List (Key × Extracted)) (dlq : List DLQItem) :
    List (Key × Extracted) × List DLQItem :=
  pruneLoop (infos.length + 1) infos dlq

/-- Merge component `j` into component `i` (`i ≠ j`): the union-find
`union` of the source collapses the two classes into one. -/
def mergeAt (comps : List (List Key)) (i j : Nat) : List (List Key) :=
  (comps.set i (comps.getD i [] ++ comps.getD j [])).eraseIdx j

/-- Process one edge of the undirected projection: union the components
of its endpoints (models `UnionFind::union`). -/
def wccStep (comps : List (List Key)) (e : Key × Key) : List (List Key) :=
  match comps.findIdx? (fun c => decide (e.1 ∈ c)), comps.findIdx? (fun c => decide (e.2 ∈ c)) with
  | some i, some j => if i = j then comps else mergeAt comps i j
  | _, _ => comps

/-- Stage 3, `split_services` / `get_weakly_connected_components`: build
the dep → dependent edge relation over surviving keys and compute weakly
connected components by union-find (edges whose endpoint is missing are
skipped, as in the source). -/
def splitServices (infos : List (Key × Extracted)) : List (List Key) :=
  let edges := infos.flatMap (fun p => p.2.deps.map (fun d => (d, p.1)))
  edges.foldl wccStep (infos.map (fun p => [p.1]))

/-- Drain a component's per-key data out of `infos`; the flag records
`is_all_meta_found`. -/
def extractComponent : List Key → List (Key × Extracted) →
    List Extracted × List (Key × Extracted) × Bool
  | [], infos => ([], infos, true)
  | k :: rest, infos =>
    match lookupKey k infos with
    | some ex =>
        let t := extractComponent rest (eraseKey k infos)
        (ex :: t.1, t.2.1, t.2.2)
    | none =>
        let t := extractComponent rest infos
        (t.1, t.2.1, false)

/-- Edges of a candidate group: for each member, one edge per declared
dependency that is itself a member (dangling deps are skipped with an
error log in the source). -/
def groupEdges (exs : List Extracted) : List (Key × Key) :=
  exs.flatMap (fun ex =>
    ex.deps.filterMap (fun d =>
      if d ∈ exs.map (fun e => e.meta.key) then some (d, ex.meta.key) else none))

/-- Kahn elimination: repeatedly peel off the nodes with no incoming edge
from the remaining set; returns a topological order, or `none` when the
elimination gets stuck (a directed cycle remains) or the fuel runs out.
With fuel ≥ number of nodes the fuel never runs out first, so
`(kahnOrder nodes.length nodes edges).isSome` is the acyclicity test;
it models `petgraph::algo::is_cyclic_directed` (and `toposort`). -/
def kahnOrder : Nat → List Key → List (Key × Key) → Option (List Key)
  | _, [], _ => some []
  | 0, _ :: _, _ => none
  | fuel + 1, k :: rem, edges =>
    let ready := (k :: rem).filter (fun x => decide (∀ e ∈ edges, e.2 = x → e.1 ∉ k :: rem))
    if ready.isEmpty then none
    else
      match kahnOrder fuel ((k :: rem).filter (fun x => decide (x ∉ ready))) edges with
      | some l => some (ready ++ l)
      | none => none

/-- Reason string of the cyclic rejection. -/
def cyclicReason : String := "Service group dependency is cyclic"

/-- Reason string of the incomplete-group rejection. -/
def siblingReason : String :=
  "Graph build failed because sibling services in the group were missing"

/-- Stages 4-5, `build_service_group`: drain the component, dead-letter
everything when some sibling's data is missing, otherwise build the graph
and reject it whole when it has a directed cycle. -/
def buildServiceGroup (component : List Key) (infos : List (Key × Extracted))
    (dlq : List DLQItem) : Option SGroup × List (Key × Extracted) × List DLQItem :=
  let t := extractComponent component infos
  let exs := t.1
  if t.2.2 then
    let metas := exs.map Extracted.meta
    let edges := groupEdges exs
    if (kahnOrder metas.length (metas.map SMeta.key) edges).isSome then
      (some { metas := metas, edges := edges }, t.2.1, dlq)
    else
      (none, t.2.1, dlq ++ exs.map (fun ex =>
        { key := ex.meta.key, reason := cyclicReason, meta := ex.meta }))
  else
    (none, t.2.1, dlq ++ exs.map (fun ex =>
      { key := ex.meta.key, reason := siblingReason, meta := ex.meta }))

/-- The loop of `build_groups_from_configs` over the components. -/
def buildGroupsLoop : List (List Key) → List (Key × Extracted) → List DLQItem →
    List SGroup × List (Key × Extracted) × List DLQItem
  | [], infos, dlq => ([], infos, dlq)
  | c :: cs, infos, dlq =>
    match buildServiceGroup c infos dlq with
    | (some g, infos', dlq') =>
        let t := buildGroupsLoop cs infos' dlq'
        (g :: t.1, t.2.1, t.2.2)
    | (none, infos', dlq') => buildGroupsLoop cs infos' dlq'

/-- `build_groups_from_configs`: the full pipeline. -/
def buildGroupsFromConfigs (configs : List SConfig) (dlq : List DLQItem) :
    List SGroup × List DLQItem :=
  let v := validateServiceNameUnique configs dlq
  let w := validateServiceDependencies v.1 v.2
  let comps := splitServices w.1
  let t := buildGroupsLoop comps w.1 w.2
  (t.1, t.2.2)

/-! ### The `ServiceManager` -/

/-- The `ServiceManager` state: groups, per-service state map, DLQ, the
cancel-token map (modelled by the set of keys holding a token), plus two
observation logs — the tokens cancelled so far and the runner tasks
spawned so far. -/
structure Manager where
  groups : List SGroup
  states : List (Key × SState)
  dlq : List DLQItem
  tokens : List Key
  cancelled : List Key
  spawned : List Key
deriving DecidableEq, Repr

/-- `ServiceManager::from_configs`: build groups, initialise every group
member's state to `Pending`, start with empty token map. -/
def fromConfigs (configs : List SConfig) : Manager :=
  let b := buildGroupsFromConfigs configs []
  { groups := b.1,
    states := b.1.flatMap (fun g => g.keys.map (fun k => (k, SState.pending))),
    dlq := b.2, tokens := [], cancelled := [], spawned := [] }

/-- The group containing `key` (models the `service_groupidx_map` lookup
composed with the group list). -/
def findGroupOf (groups : List SGroup) (key : Key) : Option SGroup :=
  groups.find? (fun g => decide (key ∈ g.keys))

/-- Incoming neighbours of `key` (its dependencies) in an edge list. -/
def depsE (edges : List (Key × Key)) (key : Key) : List Key :=
  edges.filterMap (fun e => if e.2 = key then some e.1 else none)

/-- Outgoing neighbours of `key` (its dependents / reverse dependencies). -/
def revDepsE (edges : List (Key × Key)) (key : Key) : List Key :=
  edges.filterMap (fun e => if e.1 = key then some e.2 else none)

/-- `rev_dep_keys` without the error path: the dependents of `key` inside
its group, or `[]` when the key is in no group. -/
def revDepsG (groups : List SGroup) (key : Key) : List Key :=
  match findGroupOf groups key with
  | some g => revDepsE g.edges key
  | none => []

/-- Reverse-dependency reachability: `j` is `key` itself or a dependent
of a reachable node (the transitive closure `stop_service` walks). -/
inductive RevReach (groups : List SGroup) : Key → Key → Prop where
  | refl (k : Key) : RevReach groups k k
  | head {k d j : Key} : d ∈ revDepsG groups k → RevReach groups d j → RevReach groups k j

/-- The group graphs form a DAG: no dependent of `k` reaches back to `k`. -/
def AcyclicG (groups : List SGroup) : Prop :=
  ∀ k d, d ∈ revDepsG groups k → ¬ RevReach groups d k

/-- `ServiceManager::service_state`. -/
def serviceState (m : Manager) (key : Key) : Option SState :=
  lookupKey key m.states

/-- `ServiceManager::set_service_state`: an unguarded `DashMap::insert`. -/
def setServiceState (m : Manager) (key : Key) (s : SState) : Manager :=
  { m with states := insertKey key s m.states }

/-- `ServiceManager::deps_running`: false when the key is in no group or
some incoming neighbour's state is missing or not `Running`. -/
def depsRunning (m : Manager) (key : Key) : Bool :=
  match findGroupOf m.groups key with
  | none => false
  | some g =>
      decide (∀ d ∈ depsE g.edges key, lookupKey d m.states = some SState.running)

/-- `ServiceManager::launch_service`: silent success when the dependency
gate fails; otherwise gate on the service's own state — `Running` no-op,
mid-states rejected, every other state moves to `Starting` with a fresh
child token inserted and a runner spawned. -/
def launchService (m : Manager) (key : Key) : Manager × Option String :=
  if !(depsRunning m key) then (m, none)
  else
    match lookupKey key m.states with
    | none => (m, some "service state not found")
    | some SState.running => (m, none)
    | some SState.starting => (m, some "Service is in a mid-state, ignoring launch request")
    | some SState.stopping => (m, some "Service is in a mid-state, ignoring launch request")
    | some _ =>
        ({ m with
            states := updateKey key SState.starting m.states,
            tokens := if key ∈ m.tokens then m.tokens else m.tokens ++ [key],
            spawned := m.spawned ++ [key] }, none)

/-- The recursion of `ServiceManager::stop_service`, flattened over a
worklist: processing a key runs the state gate, marks a `Running` service
`Stopping`, recursively stops each reverse dependency (an error anywhere
propagates, as the source's `?` does, leaving all mutations in place),
then removes and cancels the service's token and moves on.  The fuel is a
modelling artifact of the bounded recursion depth; every theorem below is
fuel-polymorphic or instantiated with ample fuel. -/
def stopList (groups : List SGroup) : Nat → List Key → Manager → Manager × Option String
  | _, [], m => (m, none)
  | 0, _ :: _, m => (m, some "recursion fuel exhausted")
  | fuel + 1, k :: rest, m =>
    match lookupKey k m.states with
    | none => (m, some "service state not found")
    | some SState.starting => (m, some "Service is in a mid-state, ignoring stop request")
    | some SState.stopping => (m, some "Service is in a mid-state, ignoring stop request")
    | some SState.running =>
        let m1 := { m with states := updateKey k SState.stopping m.states }
        match findGroupOf groups k with
        | none => (m1, some "service groupidx not found")
        | some g =>
            match stopList groups fuel (revDepsE g.edges k) m1 with
            | (m2, some e) => (m2, some e)
            | (m2, none) =>
                if k ∈ m2.tokens then
                  stopList groups fuel rest
                    { m2 with
                        tokens := m2.tokens.filter (fun t => decide (t ≠ k)),
                        cancelled := m2.cancelled ++ [k] }
                else (m2, some "service cancel token not found")
    | some _ => stopList groups fuel rest m

/-- `ServiceManager::stop_service` on one key. -/
def stopService (m : Manager) (fuel : Nat) (key : Key) : Manager × Option String :=
  stopList m.groups fuel [key] m

/-- Event loop, `ServiceStarted`: `Starting → Running`, else ignored. -/
def eventStarted (m : Manager) (key : Key) : Manager :=
  match lookupKey key m.states with
  | some SState.starting => { m with states := updateKey key SState.running m.states }
  | _ => m

/-- Event loop, `ServiceStopped`: `Stopping → Stopped`, else ignored. -/
def eventStopped (m : Manager) (key : Key) : Manager :=
  match lookupKey key m.states with
  | some SState.stopping => { m with states := updateKey key SState.stopped m.states }
  | _ => m

/-- Event loop, `ServiceCrashed`: when the key has a state entry, drop its
cancel token and write `Failed(reason)` unconditionally (the cascade stop
of the dependents is spawned fire-and-forget as separate `stop_service`
calls, modelled by `stopService`). -/
def eventCrashed (m : Manager) (key : Key) (reason : String) : Manager :=
  match lookupKey key m.states with
  | none => m
  | some _ =>
      { m with
          tokens := m.tokens.filter (fun t => decide (t ≠ key)),
          states := updateKey key (SState.failed reason) m.states }

/-- `ServiceManager::group_num`. -/
def groupNum (m : Manager) : Nat := m.groups.length

/-- `ServiceManager::group_service_keys`: empty list when the index is
out of bounds (the source logs and returns `Vec::new()`). -/
def groupServiceKeys (m : Manager) (idx : Nat) : List Key :=
  match m.groups[idx]? with
  | none => []
  | some g => g.keys

/-- `ServiceManager::group_root_service_keys`: members with in-degree 0;
empty list when the index is out of bounds. -/
def groupRootServiceKeys (m : Manager) (idx : Nat) : List Key :=
  match m.groups[idx]? with
  | none => []
  | some g => g.keys.filter (fun k => (depsE g.edges k).isEmpty)

/-- The launch sequence of `launch_group` over the topological order; the
per-service polling wait only reads state and logs, so it has no effect
on the manager or the result and is omitted. -/
def launchSeq : List Key → Manager → Manager × Option String
  | [], m => (m, none)
  | k :: rest, m =>
    match launchService m k with
    | (m', some e) => (m', some e)
    | (m', none) => launchSeq rest m'

/-- `ServiceManager::launch_group`: bounds-check the index, topologically
sort the group, launch every member in order. -/
def launchGroup (m : Manager) (idx : Nat) : Manager × Option String :=
  match m.groups[idx]? with
  | none => (m, some "Group index out of bounds")
  | some g =>
    match kahnOrder g.keys.length g.keys g.edges with
    | none => (m, some "Failed to get toposort")
    | some order => launchSeq order m

/-- Modelled from the spec: the allowed edges of the §4.F lifecycle state
machine — launches move `Pending | Stopped | Failed | Skipped` to
`Starting`, the runner events move `Starting` to `Running` and `Stopping`
to `Stopped`, a stop moves `Running` to `Stopping`, and a crash may move
any state to `Failed`. -/
def specAllowedEdge : SState → SState → Bool
  | SState.pending, SState.starting => true
  | SState.stopped, SState.starting => true
  | SState.failed _, SState.starting => true
  | SState.skipped, SState.starting => true
  | SState.starting, SState.running => true
  | SState.running, SState.stopping => true
  | SState.stopping, SState.stopped => true
  | _, SState.failed _ => true
  | _, _ => false

/-! ### Alias remapping (`src/apps/spindle/src-tauri/src/service.rs`) -/

/-- `is_subset(child, parent)`: the source's two-pointer walk. The loop
"while both indices are in range: if the heads agree advance the child
index; always advance the parent index; finally report whether the whole
child was consumed" is exactly this structural recursion. -/
def is_subset : List String → List String → Bool
  | [], _ => true
  | _ :: _, [] => false
  | c :: cs, p :: ps => if c = p then is_subset cs ps else is_subset (c :: cs) ps

/-- `map_alias`: for each previous `(alias, sorted names)` entry, scan the
current `(group_id, sorted names)` entries in order, skipping consumed
slots; a slot matches when the shorter name list is a subsequence of the
longer; on a match the slot is consumed and `(group_id, alias)` recorded.
The source's inner `for` loop does not stop after a match, so the scan
continues over the remaining slots for the same alias. -/
def map_alias (prev : List (String × List String)) (curr : List (Nat × List String)) :
    List (Nat × String) :=
  go prev (curr.map (fun c => (c, false)))
where
  /-- Outer loop over `prev`; the flag on each current slot is `match_flags`. -/
  go : List (String × List String) → List ((Nat × List String) × Bool) → List (Nat × String)
    | [], _ => []
    | (alias_, prevNames) :: restPrev, slots =>
        let (out, slots') := scan alias_ prevNames slots
        out ++ go restPrev slots'
  /-- Inner loop over the current slots for one previous alias. -/
  scan (alias_ : String) (prevNames : List String) :
      List ((Nat × List String) × Bool) → List (Nat × String) × List ((Nat × List String) × Bool)
    | [] => ([], [])
    | ((slot, consumed) :: rest) =>
        if consumed then
          let (out, rest') := scan alias_ prevNames rest
          (out, (slot, consumed) :: rest')
        else
          let isMatch :=
            if prevNames.length ≤ slot.2.length then is_subset prevNames slot.2
            else is_subset slot.2 prevNames
          if isMatch then
            let (out, rest') := scan alias_ prevNames rest
            ((slot.1, alias_) :: out, (slot, true) :: rest')
          else
            let (out, rest') := scan alias_ prevNames rest
            (out, (slot, consumed) :: rest')

/-- What one `stop_service` call can do to the manager. -/
structure StMono (m m' : Manager) : Prop where
  states : ∀ j, lookupKey j m'.states = lookupKey j m.states ∨
    (lookupKey j m.states = some SState.running ∧
     lookupKey j m'.states = some SState.stopping)
  tokens : ∀ j, j ∈ m'.tokens → j ∈ m.tokens
  cancelled : ∀ j, j ∈ m.cancelled → j ∈ m'.cancelled
  groups : m'.groups = m.groups

/-- The states map changed at most along spec-allowed edges (§4.F). -/
def EdgeOk (old new : List (Key × SState)) : Prop :=
  ∀ j, lookupKey j new = lookupKey j old ∨
    ∃ s s', lookupKey j old = some s ∧ lookupKey j new = some s' ∧
      specAllowedEdge s s' = true

/-- Directed reachability along an edge list (reflexive-transitive). -/
inductive ReachE (edges : List (Key × Key)) : Key → Key → Prop where
  | refl (k : Key) : ReachE edges k k
  | step {k d j : Key} : (k, d) ∈ edges → ReachE edges d j → ReachE edges k j

/-! ### Concrete fixtures -/

/-- A minimal meta for concrete examples. -/
def mkMeta (n v : String) : SMeta :=
  { name := n, version := v, program := "prog", args := [], workspace := none }

/-- Chain group: `b` depends on `a` (one edge `a → b`). -/
def chainGroup : SGroup :=
  { metas := [mkMeta "a" "1", mkMeta "b" "1"],
    edges := [(("a", "1"), ("b", "1"))] }

/-- A manager over the chain group with both services `Running` and
holding tokens. -/
def chainM : Manager :=
  { groups := [chainGroup],
    states := [(("a", "1"), SState.running), (("b", "1"), SState.running)],
    dlq := [], tokens := [("a", "1"), ("b", "1")], cancelled := [], spawned := [] }

/-- Diamond group: `b` and `c` depend on `a`, `d` depends on `b` and `c`. -/
def diamondGroup : SGroup :=
  { metas := [mkMeta "a" "1", mkMeta "b" "1", mkMeta "c" "1", mkMeta "d" "1"],
    edges := [(("a", "1"), ("b", "1")), (("a", "1"), ("c", "1")),
              (("b", "1"), ("d", "1")), (("c", "1"), ("d", "1"))] }

/-- A manager over the diamond group, every service `Running` with a token. -/
def diamondM : Manager :=
  { groups := [diamondGroup],
    states := [(("a", "1"), SState.running), (("b", "1"), SState.running),
               (("c", "1"), SState.running), (("d", "1"), SState.running)],
    dlq := [],
    tokens := [("a", "1"), ("b", "1"), ("c", "1"), ("d", "1")],
    cancelled := [], spawned := [] }

/-- A single-service group with no dependencies. -/
def soloGroup : SGroup :=
  { metas := [mkMeta "s" "1"], edges := [] }

/-- A manager over the solo group with the service `Running` and,
deliberately, no registered cancel token. -/
def soloM : Manager :=
  { groups := [soloGroup],
    states := [(("s", "1"), SState.running)],
    dlq := [], tokens := [], cancelled := [], spawned := [] }

/-- A manager over the solo group with the service `Pending`. -/
def pendM : Manager :=
  { groups := [soloGroup],
    states := [(("s", "1"), SState.pending)],
    dlq := [], tokens := [], cancelled := [], spawned := [] }

/-- Two-service group where `s` depends on `p`. -/
def depGroup : SGroup :=
  { metas := [mkMeta "p" "1", mkMeta "s" "1"],
    edges := [(("p", "1"), ("s", "1"))] }

/-- Manager over `depGroup`: the dependency `p` has `Failed`, the
dependent `s` is `Running`, and no cancel token is registered. -/
def depM : Manager :=
  { groups := [depGroup],
    states := [(("p", "1"), SState.failed "boom"), (("s", "1"), SState.running)],
    dlq := [], tokens := [], cancelled := [], spawned := [] }

/-- A manager with no groups and no states. -/
def emptyM : Manager :=
  { groups := [], states := [], dlq := [], tokens := [], cancelled := [], spawned := [] }

/-- Config fixture: service `a` with no dependencies. -/
def cfgA : SConfig :=
  { name := "a", version := "1", program := "p", args := [],
    dependencies := [], workspace := none }

/-- Config fixture: service `b` depending on `a`. -/
def cfgB : SConfig :=
  { name := "b", version := "1", program := "p", args := [],
    dependencies := [("a", "1")], workspace := none }

/-- The group built from the chain configs. -/
def chainBuiltGroup : SGroup :=
  ((fromConfigs [cfgA, cfgB]).groups).getD 0 { metas := [], edges := [] }

/-- Extraction fixtures for the two-service cycle `P ↔ Q`. -/
def exP : Extracted := { meta := mkMeta "P" "1", deps := [("Q", "1")] }

/-- Extraction fixtures for the two-service cycle `P ↔ Q`. -/
def exQ : Extracted := { meta := mkMeta "Q" "1", deps := [("P", "1")] }

/-- Extraction fixture with a self-dependency. -/
def exSelf : Extracted := { meta := mkMeta "S" "1", deps := [("S", "1")] }

/-! ### Association-list lemmas -/

@[simp] theorem lookupKey_nil (k : Key) : lookupKey (α := α) k [] = none := rfl

theorem lookupKey_cons (k : Key) (p : Key × α) (l : List (Key × α)) :
    lookupKey k (p :: l) = if k = p.1 then some p.2 else lookupKey k l := rfl

theorem lookupKey_isSome_iff_mem_keysOf (k : Key) (l : List (Key × α)) :
    (lookupKey k l).isSome = true ↔ k ∈ keysOf l := by
  induction l with
  | nil => simp [keysOf]
  | cons p rest ih =>
      by_cases h : k = p.1
      · subst h; simp [lookupKey_cons, keysOf]
      · simp [lookupKey_cons, h, keysOf, ih]

theorem lookupKey_updateKey_ne {j k : Key} (h : j ≠ k) (v : α) (l : List (Key × α)) :
    lookupKey j (updateKey k v l) = lookupKey j l := by
  induction l with
  | nil => rfl
  | cons p rest ih =>
      by_cases hp : p.1 = k
      · have hj : j ≠ p.1 := fun hh => h (hh ▸ hp)
        simp [updateKey, hp, lookupKey_cons, h, hj, updateKey] at ih ⊢
        exact ih
      · by_cases hj : j = p.1
        · simp [updateKey, hp, lookupKey_cons, hj]
        · simp [updateKey, hp, lookupKey_cons, hj] at ih ⊢
          exact ih

theorem lookupKey_updateKey_self (k : Key) (v : α) (l : List (Key × α)) :
    lookupKey k (updateKey k v l) = (lookupKey k l).map (fun _ => v) := by
  induction l with
  | nil => rfl
  | cons p rest ih =>
      by_cases hp : p.1 = k
      · simp [updateKey, hp, lookupKey_cons]
      · have hk : k ≠ p.1 := fun hh => hp hh.symm
        simp [updateKey, hp, lookupKey_cons, hk] at ih ⊢
        exact ih

/-! ### Monotonicity of the cascade stop

`stop_service` only ever moves a state `Running → Stopping`, only removes
cancel tokens, and only appends to the cancellation log — on error paths
as well as on success. -/

theorem StMono.refl (m : Manager) : StMono m m :=
  ⟨fun _ => Or.inl rfl, fun _ h => h, fun _ h => h, rfl⟩

theorem StMono.trans {a b c : Manager} (h1 : StMono a b) (h2 : StMono b c) : StMono a c := by
  refine ⟨fun j => ?_, fun j h => h1.tokens j (h2.tokens j h),
    fun j h => h2.cancelled j (h1.cancelled j h), h2.groups.trans h1.groups⟩
  rcases h2.states j with h2j | ⟨h2r, h2s⟩
  · rcases h1.states j with h1j | ⟨h1r, h1s⟩
    · exact Or.inl (h2j.trans h1j)
    · exact Or.inr ⟨h1r, h2j.trans h1s⟩
  · rcases h1.states j with h1j | ⟨h1r, h1s⟩
    · exact Or.inr ⟨h1j ▸ h2r, h2s⟩
    · rw [h1s] at h2r; cases h2r

/-- A `Stopping` state persists across anything `stop_service` does. -/
theorem StMono.keep_stopping {a b : Manager} (h : StMono a b) {j : Key}
    (hj : lookupKey j a.states = some SState.stopping) :
    lookupKey j b.states = some SState.stopping := by
  rcases h.states j with hs | ⟨hr, _⟩
  · exact hs.trans hj
  · rw [hj] at hr; cases hr

/-- Once a token is gone it stays gone. -/
theorem StMono.keep_notoken {a b : Manager} (h : StMono a b) {j : Key}
    (hj : j ∉ a.tokens) : j ∉ b.tokens :=
  fun hb => hj (h.tokens j hb)

/-- A `Running`-or-`Stopping` state stays `Running`-or-`Stopping`. -/
theorem StMono.keep_set {a b : Manager} (h : StMono a b) {j : Key}
    (hj : lookupKey j a.states = some SState.running ∨
          lookupKey j a.states = some SState.stopping) :
    lookupKey j b.states = some SState.running ∨
    lookupKey j b.states = some SState.stopping := by
  rcases h.states j with hs | ⟨_, h2⟩
  · rcases hj with hj | hj
    · exact Or.inl (hs.trans hj)
    · exact Or.inr (hs.trans hj)
  · exact Or.inr h2

/-- Marking a `Running` service `Stopping` is a monotone step. -/
theorem stMono_mark_stopping {m : Manager} {k : Key}
    (hl : lookupKey k m.states = some SState.running) :
    StMono m { m with states := updateKey k SState.stopping m.states } := by
  refine ⟨fun j => ?_, fun _ h => h, fun _ h => h, rfl⟩
  by_cases hj : j = k
  · subst hj
    exact Or.inr ⟨hl, by simp [lookupKey_updateKey_self, hl]⟩
  · exact Or.inl (lookupKey_updateKey_ne hj _ _)

/-- Removing and cancelling a token is a monotone step. -/
theorem stMono_cancel_token (m : Manager) (k : Key) :
    StMono m
      { m with tokens := m.tokens.filter (fun t => decide (t ≠ k)),
               cancelled := m.cancelled ++ [k] } := by
  refine ⟨fun _ => Or.inl rfl, fun j h => ?_, fun j h => ?_, rfl⟩
  · exact (List.mem_filter.mp h).1
  · exact List.mem_append_left _ h

/-- `stopList` is monotone, whether it succeeds or errors. -/
theorem stopList_mono (groups : List SGroup) :
    ∀ fuel ks m, StMono m (stopList groups fuel ks m).1 := by
  intro fuel
  induction fuel with
  | zero =>
      intro ks m
      cases ks <;> exact StMono.refl m
  | succ fuel ih =>
      intro ks m
      cases ks with
      | nil => exact StMono.refl m
      | cons k rest =>
          simp only [stopList]
          split
          · exact StMono.refl m
          · exact StMono.refl m
          · exact StMono.refl m
          · next hl =>
              -- running: mark stopping, recurse, cancel, continue
              split
              · next => exact stMono_mark_stopping hl
              · next g hg =>
                  split
                  · next m2 e heq =>
                      have h1 := stMono_mark_stopping (m := m) hl
                      have h2 := ih (revDepsE g.edges k)
                        { m with states := updateKey k SState.stopping m.states }
                      rw [heq] at h2
                      exact h1.trans h2
                  · next m2 heq =>
                      have h1 := stMono_mark_stopping (m := m) hl
                      have h2 := ih (revDepsE g.edges k)
                        { m with states := updateKey k SState.stopping m.states }
                      rw [heq] at h2
                      split
                      · next htok =>
                          have h3 := stMono_cancel_token m2 k
                          have h4 := ih rest
                            { m2 with tokens := m2.tokens.filter (fun t => decide (t ≠ k)),
                                      cancelled := m2.cancelled ++ [k] }
                          exact ((h1.trans h2).trans h3).trans h4
                      · next => exact h1.trans h2
          · next => exact ih rest m

/-- Inversion for reverse reachability: a reachable node is the start
itself or reachable from one of its direct dependents. -/
theorem RevReach.cases_head {groups : List SGroup} {k j : Key} (h : RevReach groups k j) :
    j = k ∨ ∃ d, d ∈ revDepsG groups k ∧ RevReach groups d j := by
  cases h with
  | refl => exact Or.inl rfl
  | head hd hr => exact Or.inr ⟨_, hd, hr⟩

/-- Core correctness of the cascade stop on success: when processing a
worklist succeeds, every worklist key whose whole reverse-reachable set
was `Running`-or-`Stopping` on entry ends with that whole set `Stopping`,
its tokens removed and cancelled. -/
theorem stopList_ok_reach (groups : List SGroup) :
    ∀ fuel ks m m', stopList groups fuel ks m = (m', none) →
      ∀ k ∈ ks,
        (lookupKey k m.states = some SState.running ∨
         lookupKey k m.states = some SState.stopping) →
        (∀ j, RevReach groups k j →
          lookupKey j m.states = some SState.running ∨
          lookupKey j m.states = some SState.stopping) →
        ∀ j, RevReach groups k j →
          lookupKey j m'.states = some SState.stopping ∧ j ∉ m'.tokens ∧ j ∈ m'.cancelled := by
  intro fuel
  induction fuel with
  | zero =>
      intro ks m m'
      cases ks with
      | nil => intro hok k hk _ _ _ _; exact absurd hk (List.not_mem_nil k)
      | cons k0 rest => intro hok; simp [stopList] at hok
  | succ fuel ih =>
      intro ks m m'
      cases ks with
      | nil => intro hok k hk _ _ _ _; exact absurd hk (List.not_mem_nil k)
      | cons k0 rest =>
          intro hok k hk hkst hreach j hj
          cases hst : lookupKey k0 m.states with
          | none => simp [stopList, hst] at hok
          | some s =>
              cases s with
              | starting => simp [stopList, hst] at hok
              | stopping => simp [stopList, hst] at hok
              | running =>
                  -- the head is marked Stopping, its dependents are
                  -- stopped recursively, its token cancelled
                  simp only [stopList, hst] at hok
                  cases hg : findGroupOf groups k0 with
                  | none => simp [hg] at hok
                  | some g =>
                      simp only [hg] at hok
                      have hm1st : lookupKey k0
                          (updateKey k0 SState.stopping m.states) = some SState.stopping := by
                        rw [lookupKey_updateKey_self, hst]; rfl
                      cases hrec : stopList groups fuel (revDepsE g.edges k0)
                          { m with states := updateKey k0 SState.stopping m.states } with
                      | mk m2 e2 =>
                          rw [hrec] at hok
                          cases e2 with
                          | some e => simp at hok
                          | none =>
                              simp only [] at hok
                              by_cases htok : k0 ∈ m2.tokens
                              · rw [if_pos htok] at hok
                                -- abbreviations for the three intermediate managers
                                have hmono1 : StMono m
                                    { m with states := updateKey k0 SState.stopping m.states } :=
                                  stMono_mark_stopping hst
                                have hmono2 : StMono
                                    { m with states := updateKey k0 SState.stopping m.states } m2 := by
                                  have := stopList_mono groups fuel (revDepsE g.edges k0)
                                    { m with states := updateKey k0 SState.stopping m.states }
                                  rwa [hrec] at this
                                have hmono3 : StMono m2
                                    { m2 with
                                        tokens := m2.tokens.filter (fun t => decide (t ≠ k0)),
                                        cancelled := m2.cancelled ++ [k0] } :=
                                  stMono_cancel_token m2 k0
                                have hmono4 : StMono
                                    { m2 with
                                        tokens := m2.tokens.filter (fun t => decide (t ≠ k0)),
                                        cancelled := m2.cancelled ++ [k0] } m' := by
                                  have := stopList_mono groups fuel rest
                                    { m2 with
                                        tokens := m2.tokens.filter (fun t => decide (t ≠ k0)),
                                        cancelled := m2.cancelled ++ [k0] }
                                  rwa [hok] at this
                                rcases List.mem_cons.mp hk with hk | hk
                                · -- k is the head k0
                                  subst hk
                                  rcases hj.cases_head with hjk | ⟨d, hd, hdj⟩
                                  · -- j is k0 itself
                                    subst hjk
                                    refine ⟨?_, ?_, ?_⟩
                                    · exact hmono4.keep_stopping
                                        (hmono2.keep_stopping hm1st)
                                    · refine hmono4.keep_notoken ?_
                                      simp [List.mem_filter]
                                    · exact hmono4.cancelled _
                                        (List.mem_append_right _ (List.mem_singleton.mpr rfl))
                                  · -- j is reachable through a dependent d
                                    have hdG : d ∈ revDepsE g.edges k := by
                                      rw [revDepsG, hg] at hd; exact hd
                                    have hih := ih (revDepsE g.edges k) _ m2 hrec d hdG
                                      (hmono1.keep_set (hreach d (RevReach.head hd (RevReach.refl d))))
                                      (fun j' hj' => hmono1.keep_set
                                        (hreach j' (RevReach.head hd hj')))
                                      j hdj
                                    refine ⟨hmono4.keep_stopping (hmono3.keep_stopping hih.1),
                                      hmono4.keep_notoken (hmono3.keep_notoken hih.2.1),
                                      hmono4.cancelled _ (hmono3.cancelled _ hih.2.2)⟩
                                · -- k is a later worklist element
                                  have hmonoTo3 : StMono m
                                      { m2 with
                                          tokens := m2.tokens.filter (fun t => decide (t ≠ k0)),
                                          cancelled := m2.cancelled ++ [k0] } :=
                                    (hmono1.trans hmono2).trans hmono3
                                  exact ih rest _ m' hok k hk
                                    (hmonoTo3.keep_set hkst)
                                    (fun j' hj' => hmonoTo3.keep_set (hreach j' hj'))
                                    j hj
                              · rw [if_neg htok] at hok
                                simp at hok
              | pending =>
                  simp only [stopList, hst] at hok
                  rcases List.mem_cons.mp hk with hk | hk
                  · subst hk; rw [hst] at hkst
                    rcases hkst with h | h <;> cases h
                  · exact ih rest m m' hok k hk hkst hreach j hj
              | stopped =>
                  simp only [stopList, hst] at hok
                  rcases List.mem_cons.mp hk with hk | hk
                  · subst hk; rw [hst] at hkst
                    rcases hkst with h | h <;> cases h
                  · exact ih rest m m' hok k hk hkst hreach j hj
              | failed r =>
                  simp only [stopList, hst] at hok
                  rcases List.mem_cons.mp hk with hk | hk
                  · subst hk; rw [hst] at hkst
                    rcases hkst with h | h <;> cases h
                  · exact ih rest m m' hok k hk hkst hreach j hj
              | skipped =>
                  simp only [stopList, hst] at hok
                  rcases List.mem_cons.mp hk with hk | hk
                  · subst hk; rw [hst] at hkst
                    rcases hkst with h | h <;> cases h
                  · exact ih rest m m' hok k hk hkst hreach j hj

/-- Each token is cancelled at most once: the cancellation log stays
duplicate-free and disjoint from the token map, on success and on error. -/
theorem stopList_cancelInv (groups : List SGroup) :
    ∀ fuel ks m, m.cancelled.Nodup → (∀ j ∈ m.cancelled, j ∉ m.tokens) →
      (stopList groups fuel ks m).1.cancelled.Nodup ∧
      ∀ j ∈ (stopList groups fuel ks m).1.cancelled, j ∉ (stopList groups fuel ks m).1.tokens := by
  intro fuel
  induction fuel with
  | zero =>
      intro ks m h1 h2
      cases ks <;> exact ⟨h1, h2⟩
  | succ fuel ih =>
      intro ks m h1 h2
      cases ks with
      | nil => exact ⟨h1, h2⟩
      | cons k0 rest =>
          simp only [stopList]
          split
          · exact ⟨h1, h2⟩
          · exact ⟨h1, h2⟩
          · exact ⟨h1, h2⟩
          · next =>
              split
              · next => exact ⟨h1, h2⟩
              · next g hg =>
                  split
                  · next m2 e heq =>
                      have hrec := ih (revDepsE g.edges k0)
                        { m with states := updateKey k0 SState.stopping m.states } h1 h2
                      rw [heq] at hrec
                      exact hrec
                  · next m2 heq =>
                      have hrec := ih (revDepsE g.edges k0)
                        { m with states := updateKey k0 SState.stopping m.states } h1 h2
                      rw [heq] at hrec
                      split
                      · next htok =>
                          have hk0c : k0 ∉ m2.cancelled := fun hc => (hrec.2 k0 hc) htok
                          have h3nodup : (m2.cancelled ++ [k0]).Nodup := by
                            simp [List.nodup_append, hrec.1, hk0c]
                          have h3disj : ∀ j ∈ m2.cancelled ++ [k0],
                              j ∉ m2.tokens.filter (fun t => decide (t ≠ k0)) := by
                            intro j hj hjf
                            have hjt := (List.mem_filter.mp hjf).1
                            have hne : j ≠ k0 := of_decide_eq_true (List.mem_filter.mp hjf).2
                            rcases List.mem_append.mp hj with hj | hj
                            · exact (hrec.2 j hj) hjt
                            · exact hne (List.mem_singleton.mp hj)
                          exact ih rest _ h3nodup h3disj
                      · next => exact hrec
          · next => exact ih rest m h1 h2

/-! #### C9: `is_subset` decides the order-preserving subsequence relation -/

theorem is_subset_nil_left (y : List String) : is_subset [] y = true := by
  cases y <;> rfl

theorem cons_sublist_of_ne {c p : String} {cs ps : List String}
    (h : List.Sublist (c :: cs) (p :: ps)) (hne : c ≠ p) :
    List.Sublist (c :: cs) ps := by
  cases h with
  | cons _ h' => exact h'
  | cons₂ _ h' => exact absurd rfl hne

theorem is_subset_iff_sublist (x y : List String) :
    is_subset x y = true ↔ List.Sublist x y := by
  induction y generalizing x with
  | nil =>
      cases x with
      | nil => simp [is_subset]
      | cons c cs => simp [is_subset]
  | cons p ps ih =>
      cases x with
      | nil => simp [is_subset]
      | cons c cs =>
          by_cases h : c = p
          · subst h
            rw [show is_subset (c :: cs) (c :: ps) = is_subset cs ps by simp [is_subset]]
            rw [ih cs]
            exact ⟨fun hs => List.Sublist.cons₂ c hs, fun hs => (List.cons_sublist_cons).mp hs⟩
          · rw [show is_subset (c :: cs) (p :: ps) = is_subset (c :: cs) ps by
              simp [is_subset, h]]
            rw [ih (c :: cs)]
            exact ⟨fun hs => List.Sublist.cons p hs, fun hs => cons_sublist_of_ne hs h⟩

/-- C9: `is_subset(x, y)` returns true if and only if `x` is an
order-preserving subsequence of `y`; in particular the empty list is a
subsequence of every list and every list is a subsequence of itself. -/
theorem C9_is_subset_iff_subsequence (x y : List String) :
    (is_subset x y = true ↔ List.Sublist x y) ∧
    is_subset [] y = true ∧ is_subset x x = true := by
  refine ⟨is_subset_iff_sublist x y, is_subset_nil_left y, ?_⟩
  exact (is_subset_iff_sublist x x).mpr (List.Sublist.refl x)

/-! #### C2: a previous alias is not bound to at most one current group

The inner scan of `map_alias` keeps matching after it has consumed a
slot, so a single previous alias can be recorded against several current
groups.  Input: the old group `{A,B,C,D}` carrying alias `all` was split
into the current groups `0 = {A,B}` and `1 = {C,D}`. -/

/-- C2: evaluating `map_alias` at the failing input.  The previous alias
`all` matches current slot `0` (first not-yet-consumed matching slot) and
is nevertheless also bound to current slot `1`, so the alias is recorded
twice — the `service_group_alias.alias UNIQUE` schema constraint rejects
such a double insert. -/
theorem C2_map_alias_binds_one_alias_twice :
    map_alias [("all", ["A", "B", "C", "D"])] [(0, ["A", "B"]), (1, ["C", "D"])] =
      [(0, "all"), (1, "all")] ∧
    ((map_alias [("all", ["A", "B", "C", "D"])] [(0, ["A", "B"]), (1, ["C", "D"])]).map
        Prod.snd).count "all" = 2 := by
  constructor <;> rfl

/-! ### C1: the cascade stop -/

/-- C1 (amended): on a group whose graph is a DAG, stopping a `Running`
service whose whole reverse-dependency-reachable set is `Running` marks
nodes `Stopping` before recursing, so each token is cancelled at most
once; and whenever the call returns success, every reverse-reachable
node ends `Stopping` (`Stopped`/`Failed` pending its runner's event),
with its cancel token removed and cancelled.  (The original claim's
unconditional success fails: a node reachable along two paths makes the
second visit's mid-state rejection propagate, see the counterexample.) -/
theorem C1_stop_service_cascade (m m' : Manager) (fuel : Nat) (key : Key)
    (hdag : AcyclicG m.groups)
    (hrun : ∀ j, RevReach m.groups key j → lookupKey j m.states = some SState.running)
    (hclean : m.cancelled = [])
    (hok : stopService m fuel key = (m', none)) :
    (∀ j, RevReach m.groups key j →
        lookupKey j m'.states = some SState.stopping ∧ j ∉ m'.tokens ∧ j ∈ m'.cancelled) ∧
    m'.cancelled.Nodup := by
  rw [stopService] at hok
  have hmain := stopList_ok_reach m.groups fuel [key] m m' hok key
    (List.mem_singleton.mpr rfl)
    (Or.inl (hrun key (RevReach.refl key)))
    (fun j hj => Or.inl (hrun j hj))
  have hinv := stopList_cancelInv m.groups fuel [key] m
    (by rw [hclean]; exact List.nodup_nil)
    (by rw [hclean]; intro j hj; exact absurd hj (List.not_mem_nil j))
  rw [hok] at hinv
  exact ⟨hmain, hinv.1⟩

/-- C1 counterexample: the diamond group is a DAG (the embedded Kahn
check succeeds), every service is `Running` and holds a token, yet
`stop_service("a")` returns the mid-state error instead of success:
`d` is reached both through `b` and through `c`, and the second visit's
rejection propagates through the `?` operator.  Tokens of `a` and `c`
are never cancelled. -/
theorem C1_counterexample_diamond_not_success :
    (kahnOrder 4 diamondGroup.keys diamondGroup.edges).isSome = true ∧
    lookupKey ("a", "1") diamondM.states = some SState.running ∧
    lookupKey ("b", "1") diamondM.states = some SState.running ∧
    lookupKey ("c", "1") diamondM.states = some SState.running ∧
    lookupKey ("d", "1") diamondM.states = some SState.running ∧
    diamondM.tokens = [("a", "1"), ("b", "1"), ("c", "1"), ("d", "1")] ∧
    (stopService diamondM 9 ("a", "1")).2 =
      some "Service is in a mid-state, ignoring stop request" ∧
    (stopService diamondM 9 ("a", "1")).1.tokens = [("a", "1"), ("c", "1")] :=
  ⟨rfl, rfl, rfl, rfl, rfl, rfl, rfl, rfl⟩

/-- Everything reverse-reachable from `b` in the chain is `b` itself. -/
theorem chain_reach_from_b {j : Key} (h : RevReach [chainGroup] ("b", "1") j) :
    j = ("b", "1") := by
  rcases h.cases_head with h | ⟨d, hd, _⟩
  · exact h
  · rw [show revDepsG [chainGroup] ("b", "1") = [] from rfl] at hd
    exact absurd hd (List.not_mem_nil d)

/-- Everything reverse-reachable from `a` in the chain is `a` or `b`. -/
theorem chain_reach_from_a {j : Key} (h : RevReach [chainGroup] ("a", "1") j) :
    j = ("a", "1") ∨ j = ("b", "1") := by
  rcases h.cases_head with h | ⟨d, hd, hdj⟩
  · exact Or.inl h
  · rw [show revDepsG [chainGroup] ("a", "1") = [("b", "1")] from rfl] at hd
    rw [List.mem_singleton.mp hd] at hdj
    exact Or.inr (chain_reach_from_b hdj)

/-- The chain group is a DAG in the reachability sense. -/
theorem chain_acyclic : AcyclicG [chainGroup] := by
  intro k d hd hreach
  by_cases hk : k ∈ chainGroup.keys
  · have hk2 : k = ("a", "1") ∨ k = ("b", "1") := by
      simpa [chainGroup, SGroup.keys, mkMeta, SMeta.key] using hk
    rcases hk2 with hk2 | hk2
    · subst hk2
      rw [show revDepsG [chainGroup] ("a", "1") = [("b", "1")] from rfl] at hd
      rw [List.mem_singleton.mp hd] at hreach
      exact absurd (chain_reach_from_b hreach) (by decide)
    · subst hk2
      rw [show revDepsG [chainGroup] ("b", "1") = [] from rfl] at hd
      exact absurd hd (List.not_mem_nil d)
  · have : findGroupOf [chainGroup] k = none := by
      simp [findGroupOf, List.find?, hk]
    rw [revDepsG, this] at hd
    exact absurd hd (List.not_mem_nil d)

/-- C1 witness: stopping `a` in the all-`Running` chain succeeds; the
theorem then yields that `b` ends `Stopping`, token-free and cancelled,
and that no token was cancelled twice. -/
theorem C1_stop_service_cascade_witness :
    lookupKey ("b", "1") (stopService chainM 5 ("a", "1")).1.states = some SState.stopping ∧
    ("b", "1") ∉ (stopService chainM 5 ("a", "1")).1.tokens ∧
    ("b", "1") ∈ (stopService chainM 5 ("a", "1")).1.cancelled ∧
    (stopService chainM 5 ("a", "1")).1.cancelled.Nodup := by
  have h := C1_stop_service_cascade chainM (stopService chainM 5 ("a", "1")).1 5 ("a", "1")
    chain_acyclic
    (by
      intro j hj
      rcases chain_reach_from_a hj with hj | hj <;> subst hj <;> rfl)
    rfl
    rfl
  have hb := h.1 ("b", "1")
    (RevReach.head (d := ("b", "1"))
      (by exact List.mem_singleton.mpr rfl)
      (RevReach.refl ("b", "1")))
  exact ⟨hb.1, hb.2.1, hb.2.2, h.2⟩

/-! ### C10: `stop_service` is not atomic on failure -/

/-- C10 (amended): when `stop_service` finds the service `Running` it
marks it `Stopping` before recursing and before looking up the cancel
token; if the call then errors (failed recursive stop, missing token),
the `Stopping` state is not rolled back, so a subsequent `stop_service`
is rejected as mid-state, and a subsequent `launch_service` is rejected
as mid-state whenever its dependency gate passes (with a failed
dependency it instead returns silently — see the counterexample). -/
theorem C10_stop_failure_not_rolled_back (m m' : Manager) (fuel : Nat) (key : Key) (e : String)
    (hrun : lookupKey key m.states = some SState.running)
    (herr : stopService m (fuel + 1) key = (m', some e)) :
    lookupKey key m'.states = some SState.stopping ∧
    (∀ fuel2, stopService m' (fuel2 + 1) key =
      (m', some "Service is in a mid-state, ignoring stop request")) ∧
    (depsRunning m' key = true →
      launchService m' key = (m', some "Service is in a mid-state, ignoring launch request")) := by
  have hstop : lookupKey key m'.states = some SState.stopping := by
    rw [stopService] at herr
    simp only [stopList, hrun] at herr
    cases hg : findGroupOf m.groups key with
    | none =>
        simp only [hg] at herr
        injection herr with h1 h2
        rw [← h1]
        simp [lookupKey_updateKey_self, hrun]
    | some g =>
        simp only [hg] at herr
        have hm1st : lookupKey key (updateKey key SState.stopping m.states) =
            some SState.stopping := by
          rw [lookupKey_updateKey_self, hrun]; rfl
        cases hrec : stopList m.groups fuel (revDepsE g.edges key)
            { m with states := updateKey key SState.stopping m.states } with
        | mk m2 e2 =>
            rw [hrec] at herr
            have hmono2 : StMono
                { m with states := updateKey key SState.stopping m.states } m2 := by
              have := stopList_mono m.groups fuel (revDepsE g.edges key)
                { m with states := updateKey key SState.stopping m.states }
              rwa [hrec] at this
            cases e2 with
            | some e3 =>
                simp only [] at herr
                injection herr with h1 h2
                rw [← h1]
                exact hmono2.keep_stopping hm1st
            | none =>
                simp only [] at herr
                by_cases htok : key ∈ m2.tokens
                · rw [if_pos htok] at herr
                  simp [stopList] at herr
                · rw [if_neg htok] at herr
                  injection herr with h1 h2
                  rw [← h1]
                  exact hmono2.keep_stopping hm1st
  refine ⟨hstop, fun fuel2 => ?_, fun hdeps => ?_⟩
  · rw [stopService]
    simp [stopList, hstop]
  · rw [launchService]
    simp [hdeps, hstop]

/-- C10 counterexample: after a failed stop leaves `s` in `Stopping`,
`launch_service` on `s` is not rejected as mid-state — its dependency
`p` is `Failed`, so the dependency gate short-circuits into a silent
no-op success before the state gate is consulted. -/
theorem C10_counterexample_launch_not_rejected :
    lookupKey ("s", "1") depM.states = some SState.running ∧
    (stopService depM 9 ("s", "1")).2 = some "service cancel token not found" ∧
    lookupKey ("s", "1") (stopService depM 9 ("s", "1")).1.states = some SState.stopping ∧
    launchService (stopService depM 9 ("s", "1")).1 ("s", "1") =
      ((stopService depM 9 ("s", "1")).1, none) :=
  ⟨rfl, rfl, rfl, rfl⟩

/-- C10 witness: the solo `Running` service without a token — the stop
errors on the missing token, the service stays `Stopping`, both
follow-up calls are rejected as mid-state. -/
theorem C10_stop_failure_witness :
    lookupKey ("s", "1") (stopService soloM 1 ("s", "1")).1.states = some SState.stopping ∧
    (stopService (stopService soloM 1 ("s", "1")).1 1 ("s", "1")).2 =
      some "Service is in a mid-state, ignoring stop request" ∧
    (launchService (stopService soloM 1 ("s", "1")).1 ("s", "1")).2 =
      some "Service is in a mid-state, ignoring launch request" := by
  have h := C10_stop_failure_not_rolled_back soloM (stopService soloM 1 ("s", "1")).1 0
    ("s", "1") "service cancel token not found" rfl rfl
  refine ⟨h.1, ?_, ?_⟩
  · rw [h.2.1 0]
  · rw [h.2.2 rfl]

/-! ### C3: transitions along the state machine -/

theorem edgeOk_refl (ms : List (Key × SState)) : EdgeOk ms ms :=
  fun _ => Or.inl rfl

theorem edgeOk_update {key : Key} {ms : List (Key × SState)} {s s' : SState}
    (hst : lookupKey key ms = some s) (hE : specAllowedEdge s s' = true) :
    EdgeOk ms (updateKey key s' ms) := by
  intro j
  by_cases hj : j = key
  · subst hj
    exact Or.inr ⟨s, s', hst, by rw [lookupKey_updateKey_self, hst]; rfl, hE⟩
  · exact Or.inl (lookupKey_updateKey_ne hj _ _)

/-- C3 (amended): the gated public operations — `launch_service`,
`stop_service`, and the three event-loop updates — only ever move a
stored state along the allowed edges of the §4.F machine (in particular
a service reaches `Running` only from `Starting` and `Stopped` only from
`Stopping`).  The unguarded `set_service_state` is excluded: it is a
bare `DashMap::insert` that can jump between arbitrary states, see the
counterexample. -/
theorem C3_ops_respect_state_machine (m : Manager) (key : Key) (fuel : Nat) (reason : String) :
    EdgeOk m.states (launchService m key).1.states ∧
    EdgeOk m.states (stopService m fuel key).1.states ∧
    EdgeOk m.states (eventStarted m key).states ∧
    EdgeOk m.states (eventStopped m key).states ∧
    EdgeOk m.states (eventCrashed m key reason).states := by
  refine ⟨?_, ?_, ?_, ?_, ?_⟩
  · -- launch_service
    cases hd : depsRunning m key with
    | false => simp only [launchService, hd]; exact edgeOk_refl _
    | true =>
        cases hst : lookupKey key m.states with
        | none => simp only [launchService, hd, hst]; exact edgeOk_refl _
        | some s =>
            cases s with
            | pending =>
                simp only [launchService, hd, hst]
                exact edgeOk_update hst rfl
            | starting => simp only [launchService, hd, hst]; exact edgeOk_refl _
            | running => simp only [launchService, hd, hst]; exact edgeOk_refl _
            | stopping => simp only [launchService, hd, hst]; exact edgeOk_refl _
            | stopped =>
                simp only [launchService, hd, hst]
                exact edgeOk_update hst rfl
            | failed r =>
                simp only [launchService, hd, hst]
                exact edgeOk_update hst rfl
            | skipped =>
                simp only [launchService, hd, hst]
                exact edgeOk_update hst rfl
  · -- stop_service, via monotonicity
    intro j
    rcases (stopList_mono m.groups fuel [key] m).states j with h | ⟨h1, h2⟩
    · exact Or.inl h
    · exact Or.inr ⟨SState.running, SState.stopping, h1, h2, rfl⟩
  · -- ServiceStarted
    cases hst : lookupKey key m.states with
    | none => simp only [eventStarted, hst]; exact edgeOk_refl _
    | some s =>
        cases s with
        | starting =>
            simp only [eventStarted, hst]
            exact edgeOk_update hst rfl
        | pending => simp only [eventStarted, hst]; exact edgeOk_refl _
        | running => simp only [eventStarted, hst]; exact edgeOk_refl _
        | stopping => simp only [eventStarted, hst]; exact edgeOk_refl _
        | stopped => simp only [eventStarted, hst]; exact edgeOk_refl _
        | failed r => simp only [eventStarted, hst]; exact edgeOk_refl _
        | skipped => simp only [eventStarted, hst]; exact edgeOk_refl _
  · -- ServiceStopped
    cases hst : lookupKey key m.states with
    | none => simp only [eventStopped, hst]; exact edgeOk_refl _
    | some s =>
        cases s with
        | stopping =>
            simp only [eventStopped, hst]
            exact edgeOk_update hst rfl
        | pending => simp only [eventStopped, hst]; exact edgeOk_refl _
        | running => simp only [eventStopped, hst]; exact edgeOk_refl _
        | starting => simp only [eventStopped, hst]; exact edgeOk_refl _
        | stopped => simp only [eventStopped, hst]; exact edgeOk_refl _
        | failed r => simp only [eventStopped, hst]; exact edgeOk_refl _
        | skipped => simp only [eventStopped, hst]; exact edgeOk_refl _
  · -- ServiceCrashed: any state may move to Failed
    cases hst : lookupKey key m.states with
    | none => simp only [eventCrashed, hst]; exact edgeOk_refl _
    | some s =>
        simp only [eventCrashed, hst]
        exact edgeOk_update hst (by cases s <;> rfl)

/-- C3 counterexample: the public `set_service_state` is an unguarded
insert — it moves `s` straight from `Pending` to `Running`, an edge the
§4.F machine does not allow (`Running` is reachable only from
`Starting`). -/
theorem C3_counterexample_set_service_state :
    lookupKey ("s", "1") pendM.states = some SState.pending ∧
    lookupKey ("s", "1") (setServiceState pendM ("s", "1") SState.running).states =
      some SState.running ∧
    specAllowedEdge SState.pending SState.running = false :=
  ⟨rfl, rfl, rfl⟩

/-! ### C8: the `launch_service` gate -/

/-- C8: `launch_service` behaves exactly as its gates prescribe: silent
no-op success when some direct dependency is not `Running`; no-op
success on a `Running` service; `Pending | Stopped | Failed | Skipped`
move to `Starting` with a fresh child token inserted and a runner
spawned; `Starting | Stopping` are rejected with the mid-state error. -/
theorem C8_launch_service_gate (m : Manager) (key : Key) :
    (depsRunning m key = false → launchService m key = (m, none)) ∧
    (depsRunning m key = true → lookupKey key m.states = some SState.running →
      launchService m key = (m, none)) ∧
    (depsRunning m key = true →
      (lookupKey key m.states = some SState.pending ∨
       lookupKey key m.states = some SState.stopped ∨
       (∃ r, lookupKey key m.states = some (SState.failed r)) ∨
       lookupKey key m.states = some SState.skipped) →
      launchService m key =
        ({ m with states := updateKey key SState.starting m.states,
                  tokens := if key ∈ m.tokens then m.tokens else m.tokens ++ [key],
                  spawned := m.spawned ++ [key] }, none)) ∧
    (depsRunning m key = true →
      (lookupKey key m.states = some SState.starting ∨
       lookupKey key m.states = some SState.stopping) →
      launchService m key = (m, some "Service is in a mid-state, ignoring launch request")) := by
  refine ⟨fun hd => ?_, fun hd hst => ?_, fun hd hst => ?_, fun hd hst => ?_⟩
  · simp [launchService, hd]
  · simp [launchService, hd, hst]
  · rcases hst with hst | hst | ⟨r, hst⟩ | hst <;> simp [launchService, hd, hst]
  · rcases hst with hst | hst <;> simp [launchService, hd, hst]

/-- C8 witness: launching the solo `Pending` service (its dependency set
is empty, so the gate passes) sets `Starting`, inserts a token and
spawns a runner. -/
theorem C8_launch_service_gate_witness :
    depsRunning pendM ("s", "1") = true ∧
    (launchService pendM ("s", "1")).2 = none ∧
    lookupKey ("s", "1") (launchService pendM ("s", "1")).1.states = some SState.starting ∧
    (launchService pendM ("s", "1")).1.tokens = [("s", "1")] ∧
    (launchService pendM ("s", "1")).1.spawned = [("s", "1")] := by
  have h := (C8_launch_service_gate pendM ("s", "1")).2.2.1 rfl (Or.inl rfl)
  refine ⟨rfl, ?_, ?_, ?_, ?_⟩ <;> rw [h] <;> rfl

/-! ### C4: precondition failures -/

/-- C4 (amended): `stop_service` with an unknown key and `launch_group`
with an out-of-bounds index do return errors, but `launch_service` with
a key in no group returns silent success (its dependency gate returns
false and the call logs and returns `Ok`), and the group introspection
calls return an empty list, not an error, on an invalid index. -/
theorem C4_precondition_errors (m : Manager) (key : Key) (idx fuel : Nat) :
    (lookupKey key m.states = none →
      stopService m (fuel + 1) key = (m, some "service state not found")) ∧
    (m.groups.length ≤ idx →
      launchGroup m idx = (m, some "Group index out of bounds")) ∧
    ((∀ g ∈ m.groups, key ∉ g.keys) → launchService m key = (m, none)) ∧
    (m.groups.length ≤ idx →
      groupServiceKeys m idx = [] ∧ groupRootServiceKeys m idx = []) := by
  refine ⟨fun h => ?_, fun h => ?_, fun h => ?_, fun h => ?_⟩
  · rw [stopService]; simp [stopList, h]
  · simp [launchGroup, List.getElem?_eq_none h]
  · have hfind : findGroupOf m.groups key = none := by
      rw [findGroupOf]
      apply List.find?_eq_none.mpr
      intro g hg
      simpa using h g hg
    simp [launchService, depsRunning, hfind]
  · constructor <;> simp [groupServiceKeys, groupRootServiceKeys, List.getElem?_eq_none h]

/-- C4 counterexample: on a manager with no groups, `launch_service` for
the unknown key `("a","1")` succeeds silently with no state change, and
the group introspection calls return empty lists — none of them return
the error the claim requires. -/
theorem C4_counterexample_silent_success :
    emptyM.groups = [] ∧
    launchService emptyM ("a", "1") = (emptyM, none) ∧
    groupServiceKeys emptyM 0 = [] ∧
    groupRootServiceKeys emptyM 0 = [] :=
  ⟨rfl, rfl, rfl, rfl⟩

/-- C4 witness: on the solo-group manager, the unknown key `("x","1")`
makes `stop_service` error and `launch_service` silently succeed, and
index 5 is out of bounds for every indexed operation. -/
theorem C4_precondition_errors_witness :
    stopService soloM 1 ("x", "1") = (soloM, some "service state not found") ∧
    launchGroup soloM 5 = (soloM, some "Group index out of bounds") ∧
    launchService soloM ("x", "1") = (soloM, none) ∧
    groupServiceKeys soloM 5 = [] ∧ groupRootServiceKeys soloM 5 = [] := by
  have h := C4_precondition_errors soloM ("x", "1") 5 0
  exact ⟨h.1 rfl, h.2.1 (by decide), h.2.2.1 (by decide),
    (h.2.2.2 (by decide)).1, (h.2.2.2 (by decide)).2⟩

/-! ### C7: dangling-dependency pruning -/

theorem lookupKey_eq_none_iff (k : Key) (l : List (Key × α)) :
    lookupKey k l = none ↔ k ∉ keysOf l := by
  rw [← lookupKey_isSome_iff_mem_keysOf]
  cases lookupKey k l <;> simp

theorem containsKey_eq_true_iff (k : Key) (l : List (Key × α)) :
    containsKey k l = true ↔ k ∈ keysOf l := by
  rw [containsKey, lookupKey_isSome_iff_mem_keysOf]

theorem keysOf_eraseKey_mem {k sk : Key} (h : k ≠ sk) (l : List (Key × α)) :
    k ∈ keysOf (eraseKey sk l) ↔ k ∈ keysOf l := by
  simp only [keysOf, eraseKey, List.mem_map, List.mem_filter]
  constructor
  · rintro ⟨p, ⟨hp, _⟩, hk⟩; exact ⟨p, hp, hk⟩
  · rintro ⟨p, hp, hk⟩
    refine ⟨p, ⟨hp, ?_⟩, hk⟩
    rw [hk]; simpa using h

theorem not_mem_keysOf_eraseKey (sk : Key) (l : List (Key × α)) :
    sk ∉ keysOf (eraseKey sk l) := by
  simp only [keysOf, eraseKey, List.mem_map, List.mem_filter]
  rintro ⟨p, ⟨_, hne⟩, hk⟩
  rw [hk] at hne
  simpa using hne

theorem lookupKey_mem {sk : Key} {l : List (Key × α)} {ex : α}
    (h : lookupKey sk l = some ex) : ∃ q ∈ l, q.1 = sk := by
  induction l with
  | nil => cases h
  | cons p rest ih =>
      rw [lookupKey_cons] at h
      by_cases hp : sk = p.1
      · exact ⟨p, List.mem_cons_self _ _, hp.symm⟩
      · rw [if_neg hp] at h
        obtain ⟨q, hq, hqk⟩ := ih h
        exact ⟨q, List.mem_cons_of_mem _ hq, hqk⟩

theorem eraseKey_length_lt {sk : Key} {l : List (Key × α)} {ex : α}
    (h : lookupKey sk l = some ex) : (eraseKey sk l).length < l.length := by
  rw [eraseKey, List.length_filter_lt_length_iff_exists]
  obtain ⟨q, hq, hqk⟩ := lookupKey_mem h
  exact ⟨q, hq, by simp [hqk]⟩

theorem pruneRemoved_length_le :
    ∀ (rs : List (Key × Key)) (infos : List (Key × Extracted)) (dlq : List DLQItem),
      (pruneRemoved rs infos dlq).1.length ≤ infos.length := by
  intro rs
  induction rs with
  | nil => intro infos dlq; exact Nat.le.refl
  | cons r rest ih =>
      intro infos dlq
      obtain ⟨sk, dk⟩ := r
      cases hl : lookupKey sk infos with
      | none => simpa [pruneRemoved, hl] using ih infos dlq
      | some ex =>
          calc (pruneRemoved ((sk, dk) :: rest) infos dlq).1.length
              = (pruneRemoved rest (eraseKey sk infos)
                  (dlq ++ [{ key := sk, reason := depMissingReason dk,
                             meta := ex.meta }])).1.length := by
                simp [pruneRemoved, hl]
            _ ≤ (eraseKey sk infos).length := ih _ _
            _ ≤ infos.length := List.length_filter_le _ _

theorem pruneRemoved_length_lt {sk dk : Key} {infos : List (Key × Extracted)}
    {rs : List (Key × Key)} {dlq : List DLQItem}
    (h : (lookupKey sk infos).isSome = true) :
    (pruneRemoved ((sk, dk) :: rs) infos dlq).1.length < infos.length := by
  obtain ⟨ex, hex⟩ := Option.isSome_iff_exists.mp h
  calc (pruneRemoved ((sk, dk) :: rs) infos dlq).1.length
      = (pruneRemoved rs (eraseKey sk infos)
          (dlq ++ [{ key := sk, reason := depMissingReason dk,
                     meta := ex.meta }])).1.length := by
        simp [pruneRemoved, hex]
    _ ≤ (eraseKey sk infos).length := pruneRemoved_length_le _ _ _
    _ < infos.length := eraseKey_length_lt hex

theorem pruneRemoved_dlq_mono {i : DLQItem} :
    ∀ (rs : List (Key × Key)) (infos : List (Key × Extracted)) (dlq : List DLQItem),
      i ∈ dlq → i ∈ (pruneRemoved rs infos dlq).2 := by
  intro rs
  induction rs with
  | nil => intro infos dlq hi; exact hi
  | cons r rest ih =>
      intro infos dlq hi
      obtain ⟨sk, dk⟩ := r
      cases hl : lookupKey sk infos with
      | none => simpa [pruneRemoved, hl] using ih infos dlq hi
      | some ex =>
          simp only [pruneRemoved, hl]
          exact ih _ _ (List.mem_append_left _ hi)

theorem pruneRemoved_removed_dlq {k : Key} :
    ∀ (rs : List (Key × Key)) (infos : List (Key × Extracted)) (dlq : List DLQItem),
      k ∈ keysOf infos → k ∉ keysOf (pruneRemoved rs infos dlq).1 →
      ∃ dk mt, ({ key := k, reason := depMissingReason dk, meta := mt } : DLQItem)
        ∈ (pruneRemoved rs infos dlq).2 := by
  intro rs
  induction rs with
  | nil =>
      intro infos dlq hin hout
      exact absurd hin hout
  | cons r rest ih =>
      intro infos dlq hin hout
      obtain ⟨sk, dk⟩ := r
      cases hl : lookupKey sk infos with
      | none =>
          simp only [pruneRemoved, hl] at hout ⊢
          exact ih infos dlq hin hout
      | some ex =>
          simp only [pruneRemoved, hl] at hout ⊢
          by_cases hk : k = sk
          · subst hk
            refine ⟨dk, ex.meta, pruneRemoved_dlq_mono rest _ _ ?_⟩
            exact List.mem_append_right _ (List.mem_singleton.mpr rfl)
          · exact ih _ _ ((keysOf_eraseKey_mem hk infos).mpr hin) hout

theorem pruneLoop_dlq_mono {i : DLQItem} :
    ∀ (fuel : Nat) (infos : List (Key × Extracted)) (dlq : List DLQItem),
      i ∈ dlq → i ∈ (pruneLoop fuel infos dlq).2 := by
  intro fuel
  induction fuel with
  | zero => intro infos dlq hi; exact hi
  | succ fuel ih =>
      intro infos dlq hi
      simp only [pruneLoop]
      split
      · exact hi
      · exact ih _ _ (pruneRemoved_dlq_mono _ _ _ hi)

/-- When the removal worklist of a pass is nonempty, the pass strictly
shrinks the surviving map. -/
theorem prune_pass_shrinks {infos : List (Key × Extracted)} {dlq : List DLQItem}
    (hne : ¬ (infos.filterMap
      (fun p => (missingDepOf infos p.2).map (fun d => (p.1, d)))).isEmpty = true) :
    (pruneRemoved (infos.filterMap
      (fun p => (missingDepOf infos p.2).map (fun d => (p.1, d)))) infos dlq).1.length
      < infos.length := by
  cases hr : infos.filterMap (fun p => (missingDepOf infos p.2).map (fun d => (p.1, d))) with
  | nil => rw [hr] at hne; simp at hne
  | cons r rest =>
      obtain ⟨sk, dk⟩ := r
      have hmem : (sk, dk) ∈ infos.filterMap
          (fun p => (missingDepOf infos p.2).map (fun d => (p.1, d))) := by
        rw [hr]; exact List.mem_cons_self _ _
      obtain ⟨p, hp, hpd⟩ := List.mem_filterMap.mp hmem
      have hsk : sk ∈ keysOf infos := by
        cases hmd : missingDepOf infos p.2 with
        | none => rw [hmd] at hpd; cases hpd
        | some d =>
            rw [hmd] at hpd
            simp only [Option.map_some'] at hpd
            cases hpd
            exact List.mem_map.mpr ⟨p, hp, rfl⟩
      have hsome : (lookupKey sk infos).isSome = true :=
        (lookupKey_isSome_iff_mem_keysOf sk infos).mpr hsk
      exact pruneRemoved_length_lt hsome

theorem pruneLoop_fixpoint :
    ∀ (fuel : Nat) (infos : List (Key × Extracted)) (dlq : List DLQItem),
      infos.length < fuel →
      ∀ p ∈ (pruneLoop fuel infos dlq).1, ∀ d ∈ p.2.deps,
        containsKey d (pruneLoop fuel infos dlq).1 = true := by
  intro fuel
  induction fuel with
  | zero => intro infos dlq h; exact absurd h (Nat.not_lt_zero _)
  | succ fuel ih =>
      intro infos dlq hfuel
      simp only [pruneLoop]
      by_cases hempty : (infos.filterMap
          (fun p => (missingDepOf infos p.2).map (fun d => (p.1, d)))).isEmpty = true
      · rw [if_pos hempty]
        intro p hp d hd
        have hm : ∀ q ∈ infos, (missingDepOf infos q.2).map (fun d => (q.1, d)) = none := by
          rw [List.isEmpty_iff] at hempty
          exact List.filterMap_eq_nil.mp hempty
        have hmd := hm p hp
        rw [Option.map_eq_none'] at hmd
        rw [missingDepOf] at hmd
        have hfd := List.find?_eq_none.mp hmd d hd
        simp only [Bool.not_eq_true] at hfd
        simpa using hfd
      · rw [if_neg hempty]
        apply ih
        have hlt := @prune_pass_shrinks _ dlq hempty
        omega

theorem pruneLoop_removed_dlq {k : Key} :
    ∀ (fuel : Nat) (infos : List (Key × Extracted)) (dlq : List DLQItem),
      k ∈ keysOf infos → k ∉ keysOf (pruneLoop fuel infos dlq).1 →
      ∃ dk mt, ({ key := k, reason := depMissingReason dk, meta := mt } : DLQItem)
        ∈ (pruneLoop fuel infos dlq).2 := by
  intro fuel
  induction fuel with
  | zero =>
      intro infos dlq hin hout
      exact absurd hin hout
  | succ fuel ih =>
      intro infos dlq hin hout
      simp only [pruneLoop] at hout ⊢
      by_cases hempty : (infos.filterMap
          (fun p => (missingDepOf infos p.2).map (fun d => (p.1, d)))).isEmpty = true
      · rw [if_pos hempty] at hout
        exact absurd hin hout
      · rw [if_neg hempty] at hout ⊢
        by_cases hk : k ∈ keysOf (pruneRemoved (infos.filterMap
            (fun p => (missingDepOf infos p.2).map (fun d => (p.1, d)))) infos dlq).1
        · exact ih _ _ hk hout
        · obtain ⟨dk, mt, hmem⟩ := pruneRemoved_removed_dlq _ infos dlq hin hk
          exact ⟨dk, mt, pruneLoop_dlq_mono _ _ _ hmem⟩

/-- C7: dangling-dependency pruning reaches a fixed point — every
surviving service's declared dependencies are all present in the
surviving map — and every removed service gets a DLQ entry whose reason
is exactly `"Dependency service <dep-name>/<dep-version> not found"`. -/
theorem C7_dangling_pruning (infos : List (Key × Extracted)) (dlq : List DLQItem) :
    (∀ p ∈ (validateServiceDependencies infos dlq).1, ∀ d ∈ p.2.deps,
      containsKey d (validateServiceDependencies infos dlq).1 = true) ∧
    (∀ k, k ∈ keysOf infos → k ∉ keysOf (validateServiceDependencies infos dlq).1 →
      ∃ dk mt, ({ key := k, reason := depMissingReason dk, meta := mt } : DLQItem)
        ∈ (validateServiceDependencies infos dlq).2) := by
  constructor
  · exact pruneLoop_fixpoint (infos.length + 1) infos dlq (Nat.lt_succ_self _)
  · intro k hin hout
    exact pruneLoop_removed_dlq (infos.length + 1) infos dlq hin hout

/-- C7 witness: a service `D` whose only dependency is missing is pruned
and dead-lettered with the dependency-not-found reason — which differs
from the cyclic reason. -/
theorem C7_dangling_pruning_witness :
    (validateServiceDependencies
        [((("D", "1") : Key), ({ meta := mkMeta "D" "1", deps := [("missing", "1")] } : Extracted))]
        []).1 = [] ∧
    (∃ dk mt, ({ key := ("D", "1"), reason := depMissingReason dk, meta := mt } : DLQItem)
      ∈ (validateServiceDependencies
          [((("D", "1") : Key), ({ meta := mkMeta "D" "1", deps := [("missing", "1")] } : Extracted))]
          []).2) ∧
    depMissingReason ("missing", "1") ≠ cyclicReason := by
  refine ⟨rfl, ?_, by decide⟩
  exact (C7_dangling_pruning
      [((("D", "1") : Key), ({ meta := mkMeta "D" "1", deps := [("missing", "1")] } : Extracted))]
      []).2 ("D", "1") (by decide) (by decide)

/-! ### C6: cycle rejection -/

/-- Along a reachability derivation one can collect a list of visited
nodes, each of which — except the start — has an in-neighbour in the
list. -/
theorem reachE_path {edges : List (Key × Key)} {a b : Key} (h : ReachE edges a b) :
    ∃ S : List Key, a ∈ S ∧ b ∈ S ∧
      ∀ c ∈ S, c = a ∨ ∃ c', c' ∈ S ∧ (c', c) ∈ edges := by
  induction h with
  | refl k =>
      exact ⟨[k], List.mem_singleton.mpr rfl, List.mem_singleton.mpr rfl,
        fun c hc => Or.inl (List.mem_singleton.mp hc)⟩
  | @step k d j hkd hdb ih =>
      obtain ⟨S, hdS, hjS, hprop⟩ := ih
      refine ⟨k :: S, List.mem_cons_self _ _, List.mem_cons_of_mem _ hjS, ?_⟩
      intro c hc
      rcases List.mem_cons.mp hc with hc | hc
      · exact Or.inl hc
      · rcases hprop c hc with hcd | ⟨c', hc', he⟩
        · refine Or.inr ⟨k, List.mem_cons_self _ _, ?_⟩
          rw [hcd]; exact hkd
        · exact Or.inr ⟨c', List.mem_cons_of_mem _ hc', he⟩

/-- A successful Kahn elimination excludes any nonempty set of nodes
each of which has an in-neighbour inside the set: such a set would
survive every elimination round. -/
theorem kahn_no_closed_set :
    ∀ (fuel : Nat) (rem : List Key) (edges : List (Key × Key)) (L : List Key),
      kahnOrder fuel rem edges = some L →
      ∀ S : List Key, S ≠ [] → (∀ c ∈ S, ∃ c', c' ∈ S ∧ (c', c) ∈ edges) →
      ¬ (∀ c ∈ S, c ∈ rem) := by
  intro fuel
  induction fuel with
  | zero =>
      intro rem edges L hk S hS hin hsub
      cases rem with
      | nil =>
          cases S with
          | nil => exact hS rfl
          | cons c cs => exact absurd (hsub c (List.mem_cons_self _ _)) (List.not_mem_nil c)
      | cons r rs => cases hk
  | succ fuel ih =>
      intro rem edges L hk S hS hin hsub
      cases rem with
      | nil =>
          cases S with
          | nil => exact hS rfl
          | cons c cs => exact absurd (hsub c (List.mem_cons_self _ _)) (List.not_mem_nil c)
      | cons r rs =>
          simp only [kahnOrder] at hk
          by_cases hready : ((r :: rs).filter
              (fun x => decide (∀ e ∈ edges, e.2 = x → e.1 ∉ r :: rs))).isEmpty = true
          · rw [if_pos hready] at hk; cases hk
          · rw [if_neg hready] at hk
            cases hrec : kahnOrder fuel ((r :: rs).filter
                (fun x => decide (x ∉ (r :: rs).filter
                  (fun x => decide (∀ e ∈ edges, e.2 = x → e.1 ∉ r :: rs))))) edges with
            | none => rw [hrec] at hk; cases hk
            | some L2 =>
                refine ih _ edges L2 hrec S hS hin ?_
                intro c hc
                rw [List.mem_filter]
                refine ⟨hsub c hc, ?_⟩
                rw [decide_eq_true_eq]
                intro hcready
                rw [List.mem_filter] at hcready
                have hprop := of_decide_eq_true hcready.2
                obtain ⟨c', hc', hedge⟩ := hin c hc
                exact hprop (c', c) hedge rfl (hsub c' hc')

/-- If Kahn elimination over `nodes` succeeds then no edge closes a
directed cycle (provided every edge target lies in `nodes`). -/
theorem kahn_no_cycle {fuel : Nat} {nodes : List Key} {edges : List (Key × Key)} {L : List Key}
    (hk : kahnOrder fuel nodes edges = some L)
    (hend : ∀ e ∈ edges, e.2 ∈ nodes) :
    ∀ k d, (k, d) ∈ edges → ¬ ReachE edges d k := by
  intro k d hkd hreach
  obtain ⟨S, hdS, hkS, hprop⟩ := reachE_path hreach
  refine kahn_no_closed_set fuel nodes edges L hk S ?_ ?_ ?_
  · intro h; rw [h] at hdS; exact (List.not_mem_nil d) hdS
  · intro c hc
    rcases hprop c hc with hcd | ⟨c', hc', he⟩
    · refine ⟨k, hkS, ?_⟩
      rw [hcd]; exact hkd
    · exact ⟨c', hc', he⟩
  · intro c hc
    rcases hprop c hc with hcd | ⟨c', hc', he⟩
    · rw [hcd]; exact hend (k, d) hkd
    · exact hend (c', c) he

/-- Both endpoints of every candidate-group edge are member keys. -/
theorem groupEdges_mem {exs : List Extracted} {e : Key × Key} (h : e ∈ groupEdges exs) :
    e.1 ∈ exs.map (fun x => x.meta.key) ∧ e.2 ∈ exs.map (fun x => x.meta.key) := by
  rw [groupEdges] at h
  obtain ⟨ex, hex, hfm⟩ := List.mem_flatMap.mp h
  obtain ⟨d, hd, hif⟩ := List.mem_filterMap.mp hfm
  by_cases hmem : d ∈ exs.map (fun e => e.meta.key)
  · rw [if_pos hmem] at hif
    cases hif
    exact ⟨hmem, List.mem_map.mpr ⟨ex, hex, rfl⟩⟩
  · rw [if_neg hmem] at hif; cases hif

/-- An emitted group is exactly the success branch of
`build_service_group`: its metas and edges come from the extracted
component and the embedded cycle check succeeded on it. -/
theorem buildServiceGroup_some {c : List Key} {infos infos' : List (Key × Extracted)}
    {dlq dlq' : List DLQItem} {g : SGroup}
    (h : buildServiceGroup c infos dlq = (some g, infos', dlq')) :
    ∃ exs : List Extracted,
      g.metas = exs.map Extracted.meta ∧ g.edges = groupEdges exs ∧
      (kahnOrder g.metas.length g.keys g.edges).isSome = true ∧ dlq' = dlq := by
  simp only [buildServiceGroup] at h
  split at h
  · split at h
    · next hkahn =>
        injection h with h1 h2
        injection h2 with h2 h3
        cases h1.symm
        exact ⟨(extractComponent c infos).1, rfl, rfl, hkahn, h3.symm⟩
    · next =>
        injection h with h1 _
        cases h1
  · injection h with h1 _
    cases h1

/-- Every group of the loop's output was produced by a successful
`build_service_group` call. -/
theorem buildGroupsLoop_mem {g : SGroup} :
    ∀ (comps : List (List Key)) (infos : List (Key × Extracted)) (dlq : List DLQItem),
      g ∈ (buildGroupsLoop comps infos dlq).1 →
      ∃ c infos0 dlq0 infos1 dlq1,
        buildServiceGroup c infos0 dlq0 = (some g, infos1, dlq1) := by
  intro comps
  induction comps with
  | nil => intro infos dlq h; exact absurd h (List.not_mem_nil g)
  | cons c cs ih =>
      intro infos dlq h
      simp only [buildGroupsLoop] at h
      cases hb : buildServiceGroup c infos dlq with
      | mk og rest2 =>
          obtain ⟨infos1, dlq1⟩ := rest2
          rw [hb] at h
          cases og with
          | some g0 =>
              simp only [] at h
              rcases List.mem_cons.mp h with h | h
              · subst h; exact ⟨c, infos, dlq, infos1, dlq1, hb⟩
              · exact ih _ _ h
          | none =>
              simp only [] at h
              exact ih _ _ h

/-- C6: every emitted group's graph is acyclic — no edge `(k, d)` admits
a path from `d` back to `k`; a candidate component whose graph fails the
cycle check is discarded whole, every member dead-lettered with reason
exactly `"Service group dependency is cyclic"`; and a self-loop (from a
self-dependency) always fails the cycle check. -/
theorem C6_cycle_rejection :
    (∀ (configs : List SConfig) (g : SGroup), g ∈ (fromConfigs configs).groups →
      ∀ k d, (k, d) ∈ g.edges → ¬ ReachE g.edges d k) ∧
    (∀ (c : List Key) (infos : List (Key × Extracted)) (dlq : List DLQItem),
      (extractComponent c infos).2.2 = true →
      (kahnOrder ((extractComponent c infos).1.map Extracted.meta).length
        (((extractComponent c infos).1.map Extracted.meta).map SMeta.key)
        (groupEdges (extractComponent c infos).1)).isSome = false →
      buildServiceGroup c infos dlq =
        (none, (extractComponent c infos).2.1,
         dlq ++ (extractComponent c infos).1.map (fun ex =>
           { key := ex.meta.key, reason := cyclicReason, meta := ex.meta }))) ∧
    (∀ (exs : List Extracted) (k : Key), (k, k) ∈ groupEdges exs →
      ∀ fuel L, kahnOrder fuel (exs.map (fun x => x.meta.key)) (groupEdges exs) ≠ some L) := by
  refine ⟨?_, ?_, ?_⟩
  · intro configs g hg k d hkd hreach
    have hg2 : g ∈ (buildGroupsLoop (splitServices
        (validateServiceDependencies (validateServiceNameUnique configs []).1
          (validateServiceNameUnique configs []).2).1)
        (validateServiceDependencies (validateServiceNameUnique configs []).1
          (validateServiceNameUnique configs []).2).1
        (validateServiceDependencies (validateServiceNameUnique configs []).1
          (validateServiceNameUnique configs []).2).2).1 := hg
    obtain ⟨c, i0, d0, i1, d1, hb⟩ := buildGroupsLoop_mem _ _ _ hg2
    obtain ⟨exs, hmetas, hedges, hkahn, _⟩ := buildServiceGroup_some hb
    obtain ⟨L, hL⟩ := Option.isSome_iff_exists.mp hkahn
    have hend : ∀ e ∈ g.edges, e.2 ∈ g.keys := by
      intro e he
      rw [hedges] at he
      have := (groupEdges_mem he).2
      rw [SGroup.keys, hmetas, List.map_map]
      exact this
    exact kahn_no_cycle hL hend k d hkd hreach
  · intro c infos dlq hall hcyc
    simp only [buildServiceGroup]
    rw [if_pos hall, if_neg (by rw [hcyc]; exact Bool.false_ne_true)]
  · intro exs k hkk fuel L hL
    have hend : ∀ e ∈ groupEdges exs, e.2 ∈ exs.map (fun x => x.meta.key) :=
      fun e he => (groupEdges_mem he).2
    exact kahn_no_cycle hL hend k k hkk (ReachE.refl k)

/-- C6 witness: the chain configs build a group with the edge `a → b`
and no path back; the `P ↔ Q` component is discarded with both members
dead-lettered as cyclic; and the self-loop fails the cycle check. -/
theorem C6_cycle_rejection_witness :
    chainBuiltGroup ∈ (fromConfigs [cfgA, cfgB]).groups ∧
    ((("a", "1") : Key), (("b", "1") : Key)) ∈ chainBuiltGroup.edges ∧
    (¬ ReachE chainBuiltGroup.edges ("b", "1") ("a", "1")) ∧
    buildServiceGroup [("P", "1"), ("Q", "1")]
        [((("P", "1") : Key), exP), ((("Q", "1") : Key), exQ)] [] =
      (none, [],
       [{ key := ("P", "1"), reason := cyclicReason, meta := mkMeta "P" "1" },
        { key := ("Q", "1"), reason := cyclicReason, meta := mkMeta "Q" "1" }]) ∧
    kahnOrder 1 [(("S", "1") : Key)] (groupEdges [exSelf]) ≠ some [] := by
  refine ⟨by decide, by decide, ?_, ?_, ?_⟩
  · exact C6_cycle_rejection.1 [cfgA, cfgB] chainBuiltGroup (by decide)
      ("a", "1") ("b", "1") (by decide)
  · rw [C6_cycle_rejection.2.1 [("P", "1"), ("Q", "1")]
      [((("P", "1") : Key), exP), ((("Q", "1") : Key), exQ)] [] (by decide) (by decide)]
    rfl
  · have hself : ((("S", "1") : Key), (("S", "1") : Key)) ∈ groupEdges [exSelf] := by decide
    exact C6_cycle_rejection.2.2 [exSelf] ("S", "1") hself 1 []

/-! ### C5: the build pipeline accounts for every config exactly once -/

theorem keysOf_append (l1 l2 : List (Key × α)) :
    keysOf (l1 ++ l2) = keysOf l1 ++ keysOf l2 :=
  List.map_append _ _ _

/-- Stage-1 ledger: every config key lands once, in the map or the DLQ;
the map keys stay duplicate-free and key-consistent. -/
theorem vsnuGo_ledger :
    ∀ (configs : List SConfig) (ret : List (Key × Extracted)) (dlq : List DLQItem),
      keyMass (vsnuGo configs ret dlq).1 + dlqMass (vsnuGo configs ret dlq).2 =
        keyMass ret + dlqMass dlq + (configs.map SConfig.key : Multiset Key) ∧
      ((keysOf ret).Nodup → (keysOf (vsnuGo configs ret dlq).1).Nodup) ∧
      (KeyConsistent ret → KeyConsistent (vsnuGo configs ret dlq).1) := by
  intro configs
  induction configs with
  | nil =>
      intro ret dlq
      refine ⟨?_, fun h => h, fun h => h⟩
      simp [vsnuGo]
  | cons c rest ih =>
      intro ret dlq
      simp only [vsnuGo]
      by_cases hc : containsKey c.key ret = true
      · rw [if_pos hc]
        obtain ⟨hmass, hnd, hkc⟩ := ih ret (dlq ++
          [{ key := c.key,
             reason := "Service " ++ c.name ++ ":v" ++ c.version ++ " is not unique",
             meta := { name := c.name, version := c.version, program := c.program,
                       args := c.args, workspace := c.workspace } }])
        refine ⟨?_, hnd, hkc⟩
        rw [hmass]
        simp only [dlqMass, List.map_append, List.map_cons, List.map_nil,
          ← Multiset.coe_add, ← Multiset.cons_coe, ← Multiset.singleton_add,
          Multiset.coe_nil, add_zero]
        abel
      · rw [if_neg hc]
        obtain ⟨hmass, hnd, hkc⟩ := ih (ret ++
          [(c.key, { meta := { name := c.name, version := c.version, program := c.program,
                               args := c.args, workspace := c.workspace },
                     deps := c.dependencies })]) dlq
        refine ⟨?_, ?_, ?_⟩
        · rw [hmass]
          simp only [keyMass, keysOf_append, keysOf, List.map_append, List.map_cons,
            List.map_nil, ← Multiset.coe_add, ← Multiset.cons_coe, ← Multiset.singleton_add,
            Multiset.coe_nil, add_zero]
          abel
        · intro hnodup
          apply hnd
          rw [keysOf_append]
          have hkey : c.key ∉ keysOf ret := by
            intro hmem
            exact hc ((containsKey_eq_true_iff _ _).mpr hmem)
          simp only [keysOf, List.map_cons, List.map_nil, List.nodup_append,
            List.nodup_cons, List.not_mem_nil, not_false_eq_true, List.nodup_nil,
            and_true, true_and, List.disjoint_singleton]
          constructor
          · exact hnodup
          · simpa [keysOf] using hkey
        · intro hcons
          apply hkc
          intro p hp
          rcases List.mem_append.mp hp with hp | hp
          · exact hcons p hp
          · rw [List.mem_singleton.mp hp]
            rfl

/-- `eraseKey` removes exactly one occurrence from a duplicate-free map. -/
theorem eraseKey_of_not_mem {sk : Key} {l : List (Key × α)} (h : sk ∉ keysOf l) :
    eraseKey sk l = l := by
  rw [eraseKey]
  apply List.filter_eq_self.mpr
  intro p hp
  simp only [decide_eq_true_eq]
  intro hpk
  exact h (hpk ▸ List.mem_map.mpr ⟨p, hp, rfl⟩)

theorem eraseKey_mass {sk : Key} {l : List (Key × α)} {ex : α}
    (h : lookupKey sk l = some ex) (hn : (keysOf l).Nodup) :
    keyMass l = sk ::ₘ keyMass (eraseKey sk l) := by
  induction l with
  | nil => cases h
  | cons p rest ih =>
      rw [lookupKey_cons] at h
      have hn2 : (keysOf rest).Nodup := (List.nodup_cons.mp hn).2
      by_cases hp : sk = p.1
      · have hrest : sk ∉ keysOf rest := by
          rw [hp]
          exact (List.nodup_cons.mp hn).1
        have herase : eraseKey sk (p :: rest) = rest := by
          rw [eraseKey, List.filter_cons, if_neg (by simp [hp.symm]),
            ← eraseKey, eraseKey_of_not_mem hrest]
        rw [herase, keyMass, keysOf, List.map_cons, ← Multiset.cons_coe, ← hp]
        rfl
      · rw [if_neg hp] at h
        have herase : eraseKey sk (p :: rest) = p :: eraseKey sk rest := by
          rw [eraseKey, List.filter_cons, if_pos (by simpa using fun hh => hp hh.symm)]
          rfl
        have h1 : keyMass (p :: rest) = p.1 ::ₘ keyMass rest := by
          rw [keyMass, keysOf, List.map_cons, ← Multiset.cons_coe]; rfl
        have h2 : keyMass (p :: eraseKey sk rest) = p.1 ::ₘ keyMass (eraseKey sk rest) := by
          rw [keyMass, keysOf, List.map_cons, ← Multiset.cons_coe]; rfl
        rw [herase, h1, h2, ih h hn2]
        exact Multiset.cons_swap _ _ _

theorem eraseKey_sublist (sk : Key) (l : List (Key × α)) :
    List.Sublist (eraseKey sk l) l :=
  List.filter_sublist l

theorem keysOf_eraseKey_nodup {sk : Key} {l : List (Key × α)}
    (hn : (keysOf l).Nodup) : (keysOf (eraseKey sk l)).Nodup :=
  ((eraseKey_sublist sk l).map Prod.fst).nodup hn

theorem keyConsistent_eraseKey {sk : Key} {l : List (Key × Extracted)}
    (hc : KeyConsistent l) : KeyConsistent (eraseKey sk l) :=
  fun p hp => hc p ((eraseKey_sublist sk l).mem hp)

/-- Stage-2 sweep ledger: each removed key moves from the map to the DLQ. -/
theorem pruneRemoved_ledger :
    ∀ (rs : List (Key × Key)) (infos : List (Key × Extracted)) (dlq : List DLQItem),
      (keysOf infos).Nodup →
      keyMass (pruneRemoved rs infos dlq).1 + dlqMass (pruneRemoved rs infos dlq).2 =
        keyMass infos + dlqMass dlq ∧
      (keysOf (pruneRemoved rs infos dlq).1).Nodup ∧
      (KeyConsistent infos → KeyConsistent (pruneRemoved rs infos dlq).1) := by
  intro rs
  induction rs with
  | nil => intro infos dlq hn; exact ⟨rfl, hn, fun h => h⟩
  | cons r rest ih =>
      intro infos dlq hn
      obtain ⟨sk, dk⟩ := r
      cases hl : lookupKey sk infos with
      | none =>
          simp only [pruneRemoved, hl]
          exact ih infos dlq hn
      | some ex =>
          simp only [pruneRemoved, hl]
          obtain ⟨hmass, hnd, hkc⟩ := ih (eraseKey sk infos)
            (dlq ++ [{ key := sk, reason := depMissingReason dk, meta := ex.meta }])
            (keysOf_eraseKey_nodup hn)
          refine ⟨?_, hnd, fun hc => hkc (keyConsistent_eraseKey hc)⟩
          rw [hmass, eraseKey_mass hl hn]
          simp only [dlqMass, List.map_append, List.map_cons, List.map_nil,
            ← Multiset.coe_add, ← Multiset.cons_coe, ← Multiset.singleton_add,
            Multiset.coe_nil, add_zero]
          abel

/-- Stage-2 loop ledger. -/
theorem pruneLoop_ledger :
    ∀ (fuel : Nat) (infos : List (Key × Extracted)) (dlq : List DLQItem),
      (keysOf infos).Nodup →
      keyMass (pruneLoop fuel infos dlq).1 + dlqMass (pruneLoop fuel infos dlq).2 =
        keyMass infos + dlqMass dlq ∧
      (keysOf (pruneLoop fuel infos dlq).1).Nodup ∧
      (KeyConsistent infos → KeyConsistent (pruneLoop fuel infos dlq).1) := by
  intro fuel
  induction fuel with
  | zero => intro infos dlq hn; exact ⟨rfl, hn, fun h => h⟩
  | succ fuel ih =>
      intro infos dlq hn
      simp only [pruneLoop]
      by_cases hempty : (infos.filterMap
          (fun p => (missingDepOf infos p.2).map (fun d => (p.1, d)))).isEmpty = true
      · rw [if_pos hempty]
        exact ⟨rfl, hn, fun h => h⟩
      · rw [if_neg hempty]
        obtain ⟨hmass1, hnd1, hkc1⟩ := pruneRemoved_ledger _ infos dlq hn
        obtain ⟨hmass2, hnd2, hkc2⟩ := ih _ _ hnd1
        exact ⟨hmass2.trans hmass1, hnd2, fun hc => hkc2 (hkc1 hc)⟩

theorem compsMass_cons (c : List Key) (cs : List (List Key)) :
    compsMass (c :: cs) = (c : Multiset Key) + compsMass cs :=
  rfl

theorem keyMass_cons (p : Key × α) (rest : List (Key × α)) :
    keyMass (p :: rest) = p.1 ::ₘ keyMass rest := by
  rw [keyMass, keysOf, List.map_cons, ← Multiset.cons_coe]
  rfl

theorem getD_set_ne {comps : List (List Key)} {i j : Nat} (h : i ≠ j) (x : List Key) :
    (comps.set i x).getD j [] = comps.getD j [] := by
  rw [List.getD, List.getD, List.get?_eq_getElem?, List.get?_eq_getElem?,
    List.getElem?_set_ne h]

theorem compsMass_set :
    ∀ (comps : List (List Key)) (i : Nat) (x : List Key), i < comps.length →
      compsMass (comps.set i x) + (comps.getD i [] : Multiset Key) =
        compsMass comps + (x : Multiset Key) := by
  intro comps
  induction comps with
  | nil => intro i x h; cases h
  | cons c cs ih =>
      intro i x h
      cases i with
      | zero =>
          rw [List.set_cons_zero, List.getD_cons_zero, compsMass_cons, compsMass_cons]
          abel
      | succ i =>
          rw [List.set_cons_succ, List.getD_cons_succ, compsMass_cons, compsMass_cons]
          have := ih i x (Nat.lt_of_succ_lt_succ h)
          calc (c : Multiset Key) + compsMass (cs.set i x) + (cs.getD i [] : Multiset Key)
              = (c : Multiset Key) + (compsMass (cs.set i x) + (cs.getD i [] : Multiset Key)) := by
                abel
            _ = (c : Multiset Key) + (compsMass cs + (x : Multiset Key)) := by rw [this]
            _ = (c : Multiset Key) + compsMass cs + (x : Multiset Key) := by abel

theorem compsMass_eraseIdx :
    ∀ (comps : List (List Key)) (j : Nat), j < comps.length →
      compsMass (comps.eraseIdx j) + (comps.getD j [] : Multiset Key) = compsMass comps := by
  intro comps
  induction comps with
  | nil => intro j h; cases h
  | cons c cs ih =>
      intro j h
      cases j with
      | zero =>
          rw [List.eraseIdx_cons_zero, List.getD_cons_zero, compsMass_cons]
          abel
      | succ j =>
          rw [List.eraseIdx_cons_succ, List.getD_cons_succ, compsMass_cons, compsMass_cons]
          have := ih j (Nat.lt_of_succ_lt_succ h)
          calc (c : Multiset Key) + compsMass (cs.eraseIdx j) + (cs.getD j [] : Multiset Key)
              = (c : Multiset Key) + (compsMass (cs.eraseIdx j) + (cs.getD j [] : Multiset Key)) := by
                abel
            _ = (c : Multiset Key) + compsMass cs := by rw [this]

theorem mergeAt_mass {comps : List (List Key)} {i j : Nat}
    (hi : i < comps.length) (hj : j < comps.length) (hne : i ≠ j) :
    compsMass (mergeAt comps i j) = compsMass comps := by
  rw [mergeAt]
  have hlen : (comps.set i (comps.getD i [] ++ comps.getD j [])).length = comps.length :=
    List.length_set comps i _
  have h1 := compsMass_eraseIdx (comps.set i (comps.getD i [] ++ comps.getD j [])) j
    (by rw [hlen]; exact hj)
  rw [getD_set_ne hne _] at h1
  have h2 := compsMass_set comps i (comps.getD i [] ++ comps.getD j []) hi
  rw [← Multiset.coe_add] at h2
  have key : compsMass ((comps.set i (comps.getD i [] ++ comps.getD j [])).eraseIdx j) +
      ((comps.getD j [] : Multiset Key) + (comps.getD i [] : Multiset Key)) =
      compsMass comps + ((comps.getD j [] : Multiset Key) + (comps.getD i [] : Multiset Key)) := by
    calc compsMass ((comps.set i (comps.getD i [] ++ comps.getD j [])).eraseIdx j) +
          ((comps.getD j [] : Multiset Key) + (comps.getD i [] : Multiset Key))
        = compsMass ((comps.set i (comps.getD i [] ++ comps.getD j [])).eraseIdx j) +
            (comps.getD j [] : Multiset Key) + (comps.getD i [] : Multiset Key) := by abel
      _ = compsMass (comps.set i (comps.getD i [] ++ comps.getD j [])) +
            (comps.getD i [] : Multiset Key) := by rw [h1]
      _ = compsMass comps +
            ((comps.getD i [] : Multiset Key) + (comps.getD j [] : Multiset Key)) := h2
      _ = compsMass comps +
            ((comps.getD j [] : Multiset Key) + (comps.getD i [] : Multiset Key)) := by abel
  exact add_right_cancel key

theorem wccStep_mass (comps : List (List Key)) (e : Key × Key) :
    compsMass (wccStep comps e) = compsMass comps := by
  rw [wccStep]
  cases h1 : comps.findIdx? (fun c => decide (e.1 ∈ c)) with
  | none => rfl
  | some i =>
      cases h2 : comps.findIdx? (fun c => decide (e.2 ∈ c)) with
      | none => rfl
      | some j =>
          simp only []
          by_cases hij : i = j
          · rw [if_pos hij]
          · rw [if_neg hij]
            have hi : i < comps.length :=
              (List.findIdx?_eq_some_iff_findIdx_eq.mp h1).1
            have hj : j < comps.length :=
              (List.findIdx?_eq_some_iff_findIdx_eq.mp h2).1
            exact mergeAt_mass hi hj hij

theorem wccFold_mass :
    ∀ (edges : List (Key × Key)) (comps : List (List Key)),
      compsMass (edges.foldl wccStep comps) = compsMass comps := by
  intro edges
  induction edges with
  | nil => intro comps; rfl
  | cons e rest ih => intro comps; rw [List.foldl_cons, ih, wccStep_mass]

theorem compsMass_singletons :
    ∀ infos : List (Key × Extracted),
      compsMass (infos.map (fun p => [p.1])) = keyMass infos := by
  intro infos
  induction infos with
  | nil => rfl
  | cons p rest ih =>
      rw [List.map_cons, compsMass_cons, ih, keyMass_cons, ← Multiset.singleton_add]
      rfl

/-- Stage-3 ledger: the weakly-connected components carry exactly the
surviving keys. -/
theorem splitServices_mass (infos : List (Key × Extracted)) :
    compsMass (splitServices infos) = keyMass infos := by
  simp only [splitServices]
  rw [wccFold_mass, compsMass_singletons]

theorem lookupKey_mem_pair {sk : Key} {l : List (Key × α)} {ex : α}
    (h : lookupKey sk l = some ex) : (sk, ex) ∈ l := by
  induction l with
  | nil => cases h
  | cons p rest ih =>
      obtain ⟨a, b⟩ := p
      rw [lookupKey_cons] at h
      by_cases hp : sk = a
      · subst hp
        rw [if_pos rfl] at h
        injection h with h
        rw [← h]
        exact List.mem_cons_self _ _
      · rw [if_neg hp] at h
        exact List.mem_cons_of_mem _ (ih h)

/-- Stage-4 extraction ledger: draining a duplicate-free component whose
keys all live in the map succeeds, removes exactly the component's keys,
and yields extracted records whose keys are the component in order. -/
theorem extractComponent_ledger :
    ∀ (c : List Key) (infos : List (Key × Extracted)),
      (keysOf infos).Nodup → c.Nodup → (∀ k ∈ c, k ∈ keysOf infos) → KeyConsistent infos →
      (extractComponent c infos).1.map (fun ex => ex.meta.key) = c ∧
      (extractComponent c infos).2.2 = true ∧
      keyMass (extractComponent c infos).2.1 + (c : Multiset Key) = keyMass infos ∧
      (keysOf (extractComponent c infos).2.1).Nodup ∧
      KeyConsistent (extractComponent c infos).2.1 := by
  intro c
  induction c with
  | nil =>
      intro infos h1 h2 h3 h4
      exact ⟨rfl, rfl, by simp [extractComponent], h1, h4⟩
  | cons k rest ih =>
      intro infos h1 h2 h3 h4
      have hk : k ∈ keysOf infos := h3 k (List.mem_cons_self _ _)
      obtain ⟨ex, hex⟩ :=
        Option.isSome_iff_exists.mp ((lookupKey_isSome_iff_mem_keysOf k infos).mpr hk)
      simp only [extractComponent, hex]
      have hknotrest : k ∉ rest := (List.nodup_cons.mp h2).1
      have hrestnodup : rest.Nodup := (List.nodup_cons.mp h2).2
      have hrest : ∀ k' ∈ rest, k' ∈ keysOf (eraseKey k infos) := by
        intro k' hk'
        have hne : k' ≠ k := fun hh => hknotrest (hh ▸ hk')
        exact (keysOf_eraseKey_mem hne infos).mpr (h3 k' (List.mem_cons_of_mem _ hk'))
      obtain ⟨hmap, hfound, hmass, hnd, hkc⟩ := ih (eraseKey k infos)
        (keysOf_eraseKey_nodup h1) hrestnodup hrest (keyConsistent_eraseKey h4)
      refine ⟨?_, hfound, ?_, hnd, hkc⟩
      · have hexmem : (k, ex) ∈ infos := lookupKey_mem_pair hex
        have hkey : ex.meta.key = k := h4 (k, ex) hexmem
        rw [List.map_cons, hmap, hkey]
      · rw [← Multiset.cons_coe, eraseKey_mass hex h1, ← hmass]
        simp only [← Multiset.singleton_add]
        abel

theorem groupsMass_cons (g : SGroup) (gs : List SGroup) :
    groupsMass (g :: gs) = (g.keys : Multiset Key) + groupsMass gs :=
  rfl

/-- Stage-4/5 ledger for one component: the component's keys leave the
map, and land either as the nodes of the emitted group or — when the
cycle check fails — as the keys of the appended DLQ entries. -/
theorem buildServiceGroup_ledger (c : List Key) (infos : List (Key × Extracted))
    (dlq : List DLQItem)
    (h1 : (keysOf infos).Nodup) (h2 : c.Nodup) (h3 : ∀ k ∈ c, k ∈ keysOf infos)
    (h4 : KeyConsistent infos) :
    keyMass (buildServiceGroup c infos dlq).2.1 + (c : Multiset Key) = keyMass infos ∧
    (keysOf (buildServiceGroup c infos dlq).2.1).Nodup ∧
    KeyConsistent (buildServiceGroup c infos dlq).2.1 ∧
    ((∃ g, (buildServiceGroup c infos dlq).1 = some g ∧
        (g.keys : Multiset Key) = (c : Multiset Key) ∧
        (buildServiceGroup c infos dlq).2.2 = dlq) ∨
     ((buildServiceGroup c infos dlq).1 = none ∧
        dlqMass (buildServiceGroup c infos dlq).2.2 = dlqMass dlq + (c : Multiset Key))) := by
  obtain ⟨hmap, hfound, hmass, hnd, hkc⟩ := extractComponent_ledger c infos h1 h2 h3 h4
  simp only [buildServiceGroup, hfound, if_true]
  by_cases hkahn : (kahnOrder ((extractComponent c infos).1.map Extracted.meta).length
      (((extractComponent c infos).1.map Extracted.meta).map SMeta.key)
      (groupEdges (extractComponent c infos).1)).isSome = true
  · rw [if_pos hkahn]
    refine ⟨hmass, hnd, hkc, Or.inl ⟨_, rfl, ?_, rfl⟩⟩
    have hkeys : SGroup.keys
        { metas := (extractComponent c infos).1.map Extracted.meta,
          edges := groupEdges (extractComponent c infos).1 } = c := by
      rw [SGroup.keys, List.map_map]
      exact hmap
    rw [hkeys]
  · rw [if_neg hkahn]
    refine ⟨hmass, hnd, hkc, Or.inr ⟨rfl, ?_⟩⟩
    rw [dlqMass, List.map_append, ← Multiset.coe_add, List.map_map]
    have hcomp : List.map (DLQItem.key ∘ fun ex =>
        { key := ex.meta.key, reason := cyclicReason, meta := ex.meta })
        (extractComponent c infos).1 = c := hmap
    rw [hcomp]
    rfl

/-- Stage-5 loop ledger: when the components carry exactly the map's
keys, every key ends in exactly one group or one appended DLQ entry. -/
theorem buildGroupsLoop_ledger :
    ∀ (comps : List (List Key)) (infos : List (Key × Extracted)) (dlq : List DLQItem),
      (keysOf infos).Nodup → KeyConsistent infos →
      compsMass comps = keyMass infos →
      groupsMass (buildGroupsLoop comps infos dlq).1 +
        dlqMass (buildGroupsLoop comps infos dlq).2.2 =
        keyMass infos + dlqMass dlq := by
  intro comps
  induction comps with
  | nil =>
      intro infos dlq h1 h4 hcm
      simp only [buildGroupsLoop]
      rw [show groupsMass [] = 0 from rfl, zero_add, ← hcm,
        show compsMass [] = 0 from rfl, zero_add]
  | cons c cs ih =>
      intro infos dlq h1 h4 hcm
      have hnodupMass : Multiset.Nodup (keyMass infos) := by
        rw [keyMass]; exact Multiset.coe_nodup.mpr h1
      have hle : (c : Multiset Key) ≤ compsMass (c :: cs) := by
        rw [compsMass_cons]; exact Multiset.le_add_right _ _
      have hcnodup : c.Nodup :=
        Multiset.coe_nodup.mp (Multiset.nodup_of_le (hcm ▸ hle) hnodupMass)
      have hcmem : ∀ k ∈ c, k ∈ keysOf infos := by
        intro k hkc
        have hmem : k ∈ compsMass (c :: cs) :=
          Multiset.mem_of_le hle (Multiset.mem_coe.mpr hkc)
        rw [hcm, keyMass] at hmem
        exact Multiset.mem_coe.mp hmem
      obtain ⟨hmass, hnd, hkc, hcase⟩ := buildServiceGroup_ledger c infos dlq h1 hcnodup hcmem h4
      have hcm2 : compsMass cs = keyMass (buildServiceGroup c infos dlq).2.1 := by
        have hsum : (c : Multiset Key) + compsMass cs =
            (c : Multiset Key) + keyMass (buildServiceGroup c infos dlq).2.1 := by
          rw [← compsMass_cons, hcm, ← hmass]; abel
        exact add_left_cancel hsum
      simp only [buildGroupsLoop]
      rcases hcase with ⟨g, hg, hgk, hdlq⟩ | ⟨hg, hdlq⟩
      · have htup : buildServiceGroup c infos dlq =
            (some g, (buildServiceGroup c infos dlq).2.1,
             (buildServiceGroup c infos dlq).2.2) := by
          rw [← hg]
        rw [htup]
        simp only []
        rw [groupsMass_cons, hgk, hdlq]
        have hih := ih (buildServiceGroup c infos dlq).2.1 dlq hnd hkc hcm2
        calc (c : Multiset Key) +
              groupsMass (buildGroupsLoop cs (buildServiceGroup c infos dlq).2.1 dlq).1 +
              dlqMass (buildGroupsLoop cs (buildServiceGroup c infos dlq).2.1 dlq).2.2
            = (c : Multiset Key) +
              (groupsMass (buildGroupsLoop cs (buildServiceGroup c infos dlq).2.1 dlq).1 +
               dlqMass (buildGroupsLoop cs (buildServiceGroup c infos dlq).2.1 dlq).2.2) := by
              abel
          _ = (c : Multiset Key) + (keyMass (buildServiceGroup c infos dlq).2.1 + dlqMass dlq) := by
              rw [hih]
          _ = keyMass (buildServiceGroup c infos dlq).2.1 + (c : Multiset Key) + dlqMass dlq := by
              abel
          _ = keyMass infos + dlqMass dlq := by rw [hmass]
      · have htup : buildServiceGroup c infos dlq =
            (none, (buildServiceGroup c infos dlq).2.1,
             (buildServiceGroup c infos dlq).2.2) := by
          rw [← hg]
        rw [htup]
        simp only []
        have hih := ih (buildServiceGroup c infos dlq).2.1
          (buildServiceGroup c infos dlq).2.2 hnd hkc hcm2
        rw [hih, hdlq]
        calc keyMass (buildServiceGroup c infos dlq).2.1 + (dlqMass dlq + (c : Multiset Key))
            = keyMass (buildServiceGroup c infos dlq).2.1 + (c : Multiset Key) + dlqMass dlq := by
              abel
          _ = keyMass infos + dlqMass dlq := by rw [hmass]

/-- C5: the group build partitions the input exactly — as a multiset,
the keys of the input configs are precisely the node keys of the emitted
groups plus the keys of the DLQ entries; no config is lost, duplicated,
or double-counted. -/
theorem C5_partition_exactness (configs : List SConfig) :
    (configs.map SConfig.key : Multiset Key) =
      groupsMass (fromConfigs configs).groups + dlqMass (fromConfigs configs).dlq := by
  obtain ⟨hm1, hnd1, hkc1⟩ := vsnuGo_ledger configs [] []
  have hnd1a : (keysOf (vsnuGo configs [] []).1).Nodup := hnd1 List.nodup_nil
  have hkc1a : KeyConsistent (vsnuGo configs [] []).1 :=
    hkc1 (fun p hp => absurd hp (List.not_mem_nil p))
  obtain ⟨hm2, hnd2, hkc2⟩ := pruneLoop_ledger ((vsnuGo configs [] []).1.length + 1)
    (vsnuGo configs [] []).1 (vsnuGo configs [] []).2 hnd1a
  have hkc2a := hkc2 hkc1a
  have hsplit := splitServices_mass
    (pruneLoop ((vsnuGo configs [] []).1.length + 1)
      (vsnuGo configs [] []).1 (vsnuGo configs [] []).2).1
  have hloop := buildGroupsLoop_ledger
    (splitServices (pruneLoop ((vsnuGo configs [] []).1.length + 1)
      (vsnuGo configs [] []).1 (vsnuGo configs [] []).2).1)
    (pruneLoop ((vsnuGo configs [] []).1.length + 1)
      (vsnuGo configs [] []).1 (vsnuGo configs [] []).2).1
    (pruneLoop ((vsnuGo configs [] []).1.length + 1)
      (vsnuGo configs [] []).1 (vsnuGo configs [] []).2).2
    hnd2 hkc2a hsplit
  have e1 : (fromConfigs configs).groups =
      (buildGroupsLoop
        (splitServices (pruneLoop ((vsnuGo configs [] []).1.length + 1)
          (vsnuGo configs [] []).1 (vsnuGo configs [] []).2).1)
        (pruneLoop ((vsnuGo configs [] []).1.length + 1)
          (vsnuGo configs [] []).1 (vsnuGo configs [] []).2).1
        (pruneLoop ((vsnuGo configs [] []).1.length + 1)
          (vsnuGo configs [] []).1 (vsnuGo configs [] []).2).2).1 := rfl
  have e2 : (fromConfigs configs).dlq =
      (buildGroupsLoop
        (splitServices (pruneLoop ((vsnuGo configs [] []).1.length + 1)
          (vsnuGo configs [] []).1 (vsnuGo configs [] []).2).1)
        (pruneLoop ((vsnuGo configs [] []).1.length + 1)
          (vsnuGo configs [] []).1 (vsnuGo configs [] []).2).1
        (pruneLoop ((vsnuGo configs [] []).1.length + 1)
          (vsnuGo configs [] []).1 (vsnuGo configs [] []).2).2).2.2 := rfl
  rw [e1, e2, hloop, hm2, hm1]
  rw [show keyMass ([] : List (Key × Extracted)) = 0 from rfl,
    show dlqMass ([] : List DLQItem) = 0 from rfl]
  abel

end Spindle
